import Mathlib

/-!
# Verification of the `krisalay/in-memory-cache` sharded cache

A shallow embedding of the Go repository `krisalay/in-memory-cache` and
proofs about it.  The embedding follows the Go sources file by file:

* `types/entry.go`        → `CacheEntry`
* `expiration/*.go`       → `eaaIsExpired`, `eaaOnWrite`, `eaaOnAccess`, `ExpCfg`
* `engine/engine.go`      → `EngineCfg`, `engineIsExpired`, `engineOnRead`, `engineOnWrite`
* `eviction/lru.go`       → `lruOnGet`, `lruOnPut`, `lruEvict`, `lruRemove`
* `eviction/lfu.go`       → `Lfu`, `lfuOnGet`, `lfuOnPut`, `lfuEvict`, `lfuRemove`
* `eviction/fifo.go`      → `Fifo`, `fifoOnGet`, `fifoOnPut`, `fifoEvict`, `fifoRemove`
* `shard/store.go`        → `CowStore`, `cowGet`, `cowPut`, `cowDelete`
* `shard/shard.go`        → `Shard`
* `sharded_cache.go`      → `SC`, `scGet`, `scPut`, `scPutWithTTL`, `scRemove`,
                            `scExpire`, `scTTL`
* `writepolicy/write_back.go` → `WBState`, `WBStep` (a transition system for the
                            bounded queue plus its single background worker)

Modelling conventions:

* Go `time.Time` and `time.Duration` are modelled as `Int` (nanosecond count).
  The zero `time.Time` is `0`, so `ExpireAt.IsZero()` becomes `expireAt = 0`,
  `now.After(t)` becomes `t < now` and `time.Until(t)` becomes `t - now`.
  `time.Now()` is passed in explicitly as a parameter `now`; the handful of
  Go functions that call `time.Now()` twice in one operation are modelled
  with a single instant (real time is monotone and no claim depends on the
  sub-operation drift).
* Go `any` values are modelled as `GoVal := Option Int`: `none` is Go `nil`
  and the payload of a non-nil value is abstracted to an `Int` (the cache
  never inspects values).
* Go maps are modelled either as association lists (when iteration/size is
  observable) or as plain functions (when only lookup is observable).  A
  doubly-linked list keyed by a hashmap (LRU) is modelled by its sequence of
  keys, head first; `map`/`delete` on a Go map bucket becomes list update /
  removal of the key.
* Entries are heap pointers in Go (`*CacheEntry`): an in-place mutation of an
  entry that is reachable from the store is modelled by rewriting that entry
  inside the store without going through `Store.Put` (`cowMutate`), which in
  particular does not touch the size counter, exactly like a Go pointer write.
* The FNV-32a hash of the shard selector is abstracted as an arbitrary
  function `hashFn : String → Nat` (the claims under verification depend only
  on the selector being a deterministic function of the key, which any
  `hashFn` is; the concrete hash constants are irrelevant).
* Error values (`error`) are modelled as `Option String` (`none` = nil).
-/

namespace InMemoryCache

/-- Go `any`: `none` models a nil interface value, `some n` a non-nil value
whose payload is abstracted to an integer. -/
abbrev GoVal := Option Int

/-- Go `error`: `none` models a nil error. -/
abbrev GoErr := Option String

/-- `types.CacheEntry`.  Times are `Int` nanoseconds; `expireAt = 0` models the
zero `time.Time`, i.e. "no TTL" (`// zero => no TTL` in the source). -/
structure CacheEntry where
  key : String
  value : GoVal
  createdAt : Int
  lastAccessedAt : Int
  expireAt : Int
  deriving DecidableEq, Repr

/-! ## Expiration strategy (`expiration/expire_after_access.go`)

`ExpireAfterAccess` carries one field `TTL`; its three methods are modelled as
functions taking that `ttl` explicitly. -/

/-- `ExpireAfterAccess.IsExpired`: `!ent.ExpireAt.IsZero() && now.After(ent.ExpireAt)`. -/
def eaaIsExpired (ent : CacheEntry) (now : Int) : Bool :=
  !(ent.expireAt == 0) && decide (ent.expireAt < now)

/-- `ExpireAfterAccess.OnAccess`: set `LastAccessedAt` to `now` and push
`ExpireAt` forward to `now + TTL`, unconditionally. -/
def eaaOnAccess (ttl : Int) (ent : CacheEntry) (now : Int) : CacheEntry :=
  { ent with lastAccessedAt := now, expireAt := now + ttl }

/-- `ExpireAfterAccess.OnWrite`: record `CreatedAt`/`LastAccessedAt`, and set
`ExpireAt` to `now + TTL` only if no expiry is currently set. -/
def eaaOnWrite (ttl : Int) (ent : CacheEntry) (now : Int) : CacheEntry :=
  let ent1 := { ent with createdAt := now, lastAccessedAt := now }
  if ent1.expireAt == 0 then { ent1 with expireAt := now + ttl } else ent1

/-- The expiration strategy wired into the engine: Go `expiration.Strategy` is
an interface field that is either nil (`noExp`) or an `*ExpireAfterAccess`
(the only implementation in the repository). -/
inductive ExpCfg where
  | noExp : ExpCfg
  | expireAfterAccess (ttl : Int) : ExpCfg
  deriving DecidableEq, Repr

/-- Dispatch of `e.Expiration.IsExpired(ent, now)` (nil strategy never fires;
this is the `e.Expiration != nil && ...` guard of `CacheEngine.IsExpired`). -/
def expIsExpired : ExpCfg → CacheEntry → Int → Bool
  | .noExp, _, _ => false
  | .expireAfterAccess _, ent, now => eaaIsExpired ent now

/-- Dispatch of the strategy's `OnWrite` hook (nil strategy: no change). -/
def expOnWrite : ExpCfg → CacheEntry → Int → CacheEntry
  | .noExp, ent, _ => ent
  | .expireAfterAccess ttl, ent, now => eaaOnWrite ttl ent now

/-- Dispatch of the strategy's `OnAccess` hook (nil strategy: no change). -/
def expOnAccess : ExpCfg → CacheEntry → Int → CacheEntry
  | .noExp, ent, _ => ent
  | .expireAfterAccess ttl, ent, now => eaaOnAccess ttl ent now

/-! ## Cache engine (`engine/engine.go`)

The engine owns no storage; we model its configuration.  The write policy and
refresh hook are external collaborators: for the engine-level claims only
their presence matters, and the facade records every forwarded write in a
log (`wlog` below), which stands for `WritePolicy.OnWrite(ctx, key, value)`. -/

/-- The engine configuration (`CacheEngine` fields).  `loader` models the
injected `types.Loader`: `Load` returns `(value, error)`. -/
structure EngineCfg where
  expiration : ExpCfg
  hasRefresh : Bool
  hasWritePolicy : Bool
  loader : String → GoVal × GoErr

/-- `CacheEngine.IsExpired`. -/
def engineIsExpired (cfg : EngineCfg) (ent : CacheEntry) (now : Int) : Bool :=
  expIsExpired cfg.expiration ent now

/-- `CacheEngine.OnRead`: run the strategy's access hook, then (if a refresh
hook is configured) record a refresh metric and invoke the hook.  The hook is
an external collaborator and does not belong to the core; its invocation is
reported as the returned `Bool` (`true` ↔ `Metrics.Refresh()` fired). -/
def engineOnRead (cfg : EngineCfg) (ent : CacheEntry) (now : Int) :
    CacheEntry × Bool :=
  (expOnAccess cfg.expiration ent now, cfg.hasRefresh)

/-- `CacheEngine.OnWrite`: run the strategy's write hook first; if the entry's
`ExpireAt` is non-zero afterwards, return without forwarding; otherwise
forward to the write policy when one is configured.  The returned `Bool` is
`true` exactly when `e.WritePolicy.OnWrite(ctx, ent.Key, ent.Value)` ran. -/
def engineOnWrite (cfg : EngineCfg) (ent : CacheEntry) (now : Int) :
    CacheEntry × Bool :=
  let ent1 := expOnWrite cfg.expiration ent now
  if !(ent1.expireAt == 0) then (ent1, false)
  else (ent1, cfg.hasWritePolicy)

/-! ## LRU eviction (`eviction/lru.go`)

The hashmap-of-nodes plus doubly-linked list is modelled by the sequence of
keys it threads, head (most recently used) first; the `nodes` map is exactly
the membership of that sequence.  `moveToFront` = remove + cons,
`addFront` = cons, the tail is the last element. -/

/-- `lru.OnGet`: if the key is tracked, move its node to the front. -/
def lruOnGet (l : List String) (k : String) : List String :=
  if k ∈ l then k :: l.erase k else l

/-- `lru.OnPut`: nothing for a tracked key, otherwise insert at the front. -/
def lruOnPut (l : List String) (k : String) : List String :=
  if k ∈ l then l else k :: l

/-- `lru.Evict`: return `""` when nothing is tracked, else remove and return
the tail (least recently used) key. -/
def lruEvict (l : List String) : String × List String :=
  match l.getLast? with
  | none => ("", l)
  | some k => (k, l.dropLast)

/-- `lru.Remove`: unlink an explicitly removed key. -/
def lruRemove (l : List String) (k : String) : List String :=
  l.erase k

/-! ## LFU eviction (`eviction/lfu.go`)

`nodes : map[string]*lfuNode` keeps each key's frequency, and
`freqMap : map[int]map[string]*lfuNode` buckets keys by frequency.  Only
lookup is observable on `nodes`, so it is a function `String → Option Nat`;
a frequency bucket's key set is observable (eviction ranges over it), so
`freqMap` is a function `Nat → List String` where the empty list models both
an absent and an empty bucket (Go treats the two identically here: ranging
over and `len` of a nil map behave like an empty one, and the engine only
ever deletes all-empty buckets). -/

/-- One key's bucket membership update: Go `bucket[k] = n` (a map insert
cannot duplicate a key). -/
def bucketAdd (b : List String) (k : String) : List String :=
  if k ∈ b then b else b ++ [k]

/-- The LFU bookkeeping state (`lfu` struct). -/
structure Lfu where
  nodes : String → Option Nat
  freqMap : Nat → List String
  minFreq : Nat

/-- `newLFU()`. -/
def lfuNew : Lfu := ⟨fun _ => none, fun _ => [], 0⟩

/-- `lfu.OnGet`: bump a tracked key's frequency, move it between buckets and
advance `minFreq` when the old bucket was the emptied minimum.  (Go deletes
the emptied bucket from `freqMap`; an absent bucket reads as `[]` here.) -/
def lfuOnGet (s : Lfu) (k : String) : Lfu :=
  match s.nodes k with
  | none => s
  | some old =>
    let freq' := old + 1
    let nodes' : String → Option Nat := fun x => if x = k then some freq' else s.nodes x
    let bOld := (s.freqMap old).filter (fun x => x ≠ k)
    let minFreq' := if bOld = [] ∧ s.minFreq = old then s.minFreq + 1 else s.minFreq
    let fm1 : Nat → List String := fun f => if f = old then bOld else s.freqMap f
    let fm2 : Nat → List String :=
      fun f => if f = freq' then bucketAdd (fm1 freq') k else fm1 f
    ⟨nodes', fm2, minFreq'⟩

/-- `lfu.OnPut`: ignore tracked keys; a new key starts at frequency 1 and
resets `minFreq` to 1. -/
def lfuOnPut (s : Lfu) (k : String) : Lfu :=
  match s.nodes k with
  | some _ => s
  | none =>
    ⟨fun x => if x = k then some 1 else s.nodes x,
     fun f => if f = 1 then bucketAdd (s.freqMap 1) k else s.freqMap f,
     1⟩

/-- `lfu.Evict`: pick a key of the `minFreq` bucket (Go ranges over the
bucket map in arbitrary order; the model takes the bucket's first key, one
of the permitted arbitrary choices), delete it from the bucket and from
`nodes`, and return it; return `""` when that bucket is empty.  Note that
`minFreq` is NOT updated. -/
def lfuEvict (s : Lfu) : String × Lfu :=
  match s.freqMap s.minFreq with
  | [] => ("", s)
  | k :: _ =>
    (k, ⟨fun x => if x = k then none else s.nodes x,
         fun f => if f = s.minFreq then (s.freqMap s.minFreq).filter (fun x => x ≠ k)
                  else s.freqMap f,
         s.minFreq⟩)

/-- `lfu.Remove`: drop a tracked key from its bucket and from `nodes`.
Note that `minFreq` is NOT updated. -/
def lfuRemove (s : Lfu) (k : String) : Lfu :=
  match s.nodes k with
  | none => s
  | some f0 =>
    ⟨fun x => if x = k then none else s.nodes x,
     fun f => if f = f0 then (s.freqMap f0).filter (fun x => x ≠ k) else s.freqMap f,
     s.minFreq⟩

/-! ## FIFO eviction (`eviction/fifo.go`) -/

/-- The FIFO bookkeeping state (`fifo` struct): insertion-ordered queue and
the membership set (`map[string]struct{}`, modelled as its characteristic
function). -/
structure Fifo where
  queue : List String
  set : String → Bool

/-- `newFIFO()`. -/
def fifoNew : Fifo := ⟨[], fun _ => false⟩

/-- `fifo.OnGet` ignores reads. -/
def fifoOnGet (s : Fifo) (_k : String) : Fifo := s

/-- `fifo.OnPut`: append only on first insertion. -/
def fifoOnPut (s : Fifo) (k : String) : Fifo :=
  if s.set k then s else ⟨s.queue ++ [k], fun x => if x = k then true else s.set x⟩

/-- `fifo.Evict`: pop and return the front (oldest) key, `""` when empty. -/
def fifoEvict (s : Fifo) : String × Fifo :=
  match s.queue with
  | [] => ("", s)
  | k :: rest => (k, ⟨rest, fun x => if x = k then false else s.set x⟩)

/-- `fifo.Remove`: drop a tracked key from the set and its first occurrence
from the queue (the Go loop breaks after the first match). -/
def fifoRemove (s : Fifo) (k : String) : Fifo :=
  if s.set k then ⟨s.queue.erase k, fun x => if x = k then false else s.set x⟩ else s

/-! ## Policy dispatch (`eviction/eviction.go`) -/

/-- `eviction.PolicyType`. -/
inductive PolicyType where
  | LRU | LFU | FIFO
  deriving DecidableEq, Repr

/-- One of the three concrete policies behind the `eviction.Policy`
interface. -/
inductive EvPolicy where
  | lru (l : List String)
  | lfu (s : Lfu)
  | fifo (s : Fifo)

/-- `eviction.NewEvictionPolicy` (the `default: panic` arm is unreachable
because `PolicyType` is a closed enumeration). -/
def newEvictionPolicy : PolicyType → EvPolicy
  | .LRU => .lru []
  | .LFU => .lfu lfuNew
  | .FIFO => .fifo fifoNew

/-- Interface dispatch of `Policy.OnGet`. -/
def evOnGet : EvPolicy → String → EvPolicy
  | .lru l, k => .lru (lruOnGet l k)
  | .lfu s, k => .lfu (lfuOnGet s k)
  | .fifo s, k => .fifo (fifoOnGet s k)

/-- Interface dispatch of `Policy.OnPut`. -/
def evOnPut : EvPolicy → String → EvPolicy
  | .lru l, k => .lru (lruOnPut l k)
  | .lfu s, k => .lfu (lfuOnPut s k)
  | .fifo s, k => .fifo (fifoOnPut s k)

/-- Interface dispatch of `Policy.Remove`. -/
def evRemove : EvPolicy → String → EvPolicy
  | .lru l, k => .lru (lruRemove l k)
  | .lfu s, k => .lfu (lfuRemove s k)
  | .fifo s, k => .fifo (fifoRemove s k)

/-- Interface dispatch of `Policy.Evict`. -/
def evEvict : EvPolicy → String × EvPolicy
  | .lru l => ((lruEvict l).1, .lru (lruEvict l).2)
  | .lfu s => ((lfuEvict s).1, .lfu (lfuEvict s).2)
  | .fifo s => ((fifoEvict s).1, .fifo (fifoEvict s).2)

/-! ## Copy-on-write store (`shard/store.go`)

The published snapshot `map[string]*CacheEntry` is modelled as an association
list whose key order stands for the (unobservable) map iteration order; the
separately tracked `size` counter is kept as its own field exactly as in the
source (`Put`/`Delete` rebuild the map and then store `len` of the new map
into the counter). -/

/-- The `cowStore` struct: published snapshot plus the separate size counter. -/
structure CowStore where
  data : List (String × CacheEntry)
  size : Nat

/-- `NewCOWStore()`. -/
def cowNew : CowStore := ⟨[], 0⟩

/-- `cowStore.Get`: lookup in the current snapshot. -/
def cowGet (s : CowStore) (k : String) : Option CacheEntry :=
  match s.data.find? (fun p => p.1 == k) with
  | some p => some p.2
  | none => none

/-- The key set of the new snapshot built by `cowStore.Put`: every existing
entry is copied and the written key is bound to the new entry, so an existing
binding is replaced in place and a fresh key is appended. -/
def putAssoc (l : List (String × CacheEntry)) (k : String) (e : CacheEntry) :
    List (String × CacheEntry) :=
  if k ∈ l.map Prod.fst then l.map (fun p => if p.1 = k then (k, e) else p)
  else l ++ [(k, e)]

/-- `cowStore.Put`: publish the rebuilt snapshot, then store its `len` into
the size counter. -/
def cowPut (s : CowStore) (k : String) (e : CacheEntry) : CowStore :=
  let n := putAssoc s.data k e
  ⟨n, n.length⟩

/-- `cowStore.Delete`: publish a copy without the key, then store its `len`
into the size counter. -/
def cowDelete (s : CowStore) (k : String) : CowStore :=
  let n := s.data.filter (fun p => p.1 ≠ k)
  ⟨n, n.length⟩

/-- An in-place mutation of the `*CacheEntry` a key maps to (Go writes the
entry through its pointer; the snapshot and size counter are untouched). -/
def cowMutate (s : CowStore) (k : String) (e : CacheEntry) : CowStore :=
  { s with data := s.data.map (fun p => if p.1 = k then (k, e) else p) }

/-! ## Shard (`shard/shard.go`) and facade (`sharded_cache.go`) -/

/-- A `shard.Shard`: one COW store plus one eviction policy instance (the
write mutex serializes writers and is invisible to the sequential model). -/
structure Shard where
  store : CowStore
  ev : EvPolicy

/-- Metrics counters (`types.Metrics` event counts; `NoopMetrics` simply
means nobody reads them). -/
structure Metrics where
  hit : Nat := 0
  miss : Nat := 0
  eviction : Nat := 0
  expire : Nat := 0
  refresh : Nat := 0

/-- The `ShardedCache` facade: shard list, engine, total capacity and the
selector's hash function (`hash/fnv` abstracted; `Select` reduces the hash
modulo the shard count).  `wlog` records, in order, every `(key, value)` the
engine forwarded to the write policy, and `metrics` the emitted events. -/
structure SC where
  shards : List Shard
  engine : EngineCfg
  capacity : Nat
  hashFn : String → Nat
  wlog : List (String × GoVal) := []
  metrics : Metrics := {}

/-- `NewShardedCache`: `n` shards, each with its own store and a fresh
eviction policy of the selected type. -/
def newShardedCache (n : Nat) (capacity : Nat) (pt : PolicyType)
    (engine : EngineCfg) (hashFn : String → Nat) : SC :=
  { shards := List.replicate n ⟨cowNew, newEvictionPolicy pt⟩
    engine := engine
    capacity := capacity
    hashFn := hashFn }

/-- `PowerOfTwoSelector.Select` (despite the name, a single hash-modulo
choice): the index of the shard owning a key. -/
def scSelect (c : SC) (k : String) : Nat :=
  c.hashFn k % c.shards.length

/-- The shard at an index.  The fallback is never reached when the cache has
at least one shard, because `scSelect` reduces modulo the length (a zero
shard count makes the Go constructor divide by zero). -/
def getShard (c : SC) (idx : Nat) : Shard :=
  c.shards.getD idx ⟨cowNew, .lru []⟩

/-- Replace the shard at an index. -/
def setShard (c : SC) (idx : Nat) (sh : Shard) : SC :=
  { c with shards := c.shards.set idx sh }

/-- The capacity-check block at the top of `PutWithTTL`: when the shard's
occupancy is at or over the threshold, ask the policy for a victim and delete
it from the store (no deletion when the policy answered `""`).  Returns the
updated shard and the victim (`""` when no eviction metric is recorded). -/
def shardEvictStage (threshold : Nat) (sh : Shard) : Shard × String :=
  if sh.store.size ≥ threshold then
    let ek := (evEvict sh.ev).1
    let ev' := (evEvict sh.ev).2
    if ek ≠ "" then (⟨cowDelete sh.store ek, ev'⟩, ek) else (⟨sh.store, ev'⟩, "")
  else (sh, "")

/-- `ShardedCache.PutWithTTL`: under the shard lock — evict one key when the
shard is at or over `capacity / len(shards)` (recording an eviction metric
when the policy named a victim), build the entry (explicit expiry only when
`ttl > 0`), run the engine's write hook (which may forward to the write
policy), publish the entry and notify the policy. -/
def scPutWithTTL (c : SC) (k : String) (v : GoVal) (ttl : Int) (now : Int) : SC :=
  let idx := scSelect c k
  let sh := getShard c idx
  let stage := shardEvictStage (c.capacity / c.shards.length) sh
  let ent : CacheEntry :=
    { key := k, value := v, createdAt := now, lastAccessedAt := now
      expireAt := if ttl > 0 then now + ttl else 0 }
  let written := engineOnWrite c.engine ent now
  let sh2 : Shard := ⟨cowPut stage.1.store k written.1, evOnPut stage.1.ev k⟩
  { setShard c idx sh2 with
    wlog := if written.2 then c.wlog ++ [(written.1.key, written.1.value)] else c.wlog
    metrics :=
      if stage.2 ≠ "" then { c.metrics with eviction := c.metrics.eviction + 1 }
      else c.metrics }

/-- `ShardedCache.Put` = `PutWithTTL` with `ttl = 0`. -/
def scPut (c : SC) (k : String) (v : GoVal) (now : Int) : SC :=
  scPutWithTTL c k v 0 now

/-- `ShardedCache.Remove`: delete from the store and from the eviction
policy's bookkeeping (idempotent). -/
def scRemove (c : SC) (k : String) : SC :=
  let idx := scSelect c k
  let sh := getShard c idx
  setShard c idx ⟨cowDelete sh.store k, evRemove sh.ev k⟩

/-- The miss path at the end of `ShardedCache.Get`: record the miss, load
through singleflight (sequentially: one direct `Loader.Load` call), return
the loader's error or nil result verbatim without caching, and otherwise
cache the loaded value with an implicit `Put` and return it. -/
def scMiss (c : SC) (k : String) (now : Int) : (GoVal × GoErr) × SC :=
  let c1 := { c with metrics := { c.metrics with miss := c.metrics.miss + 1 } }
  let res := c1.engine.loader k
  if res.2 ≠ none ∨ res.1 = none then ((none, res.2), c1)
  else ((res.1, none), scPut c1 k res.1 now)

/-- `ShardedCache.Get`: hit → expiry check, metrics, engine read hook
(mutating the entry in place) and eviction `OnGet`, returning the value;
expired → expire metric, `Remove`, then the miss path; absent → the miss
path. -/
def scGet (c : SC) (k : String) (now : Int) : (GoVal × GoErr) × SC :=
  let idx := scSelect c k
  let sh := getShard c idx
  match cowGet sh.store k with
  | some ent =>
    if engineIsExpired c.engine ent now then
      let c1 := { c with metrics := { c.metrics with expire := c.metrics.expire + 1 } }
      scMiss (scRemove c1 k) k now
    else
      let r := engineOnRead c.engine ent now
      let sh' : Shard := ⟨cowMutate sh.store k r.1, evOnGet sh.ev k⟩
      let m1 := { c.metrics with hit := c.metrics.hit + 1 }
      let m2 := if r.2 then { m1 with refresh := m1.refresh + 1 } else m1
      ((r.1.value, none), { setShard c idx sh' with metrics := m2 })
  | none => scMiss c k now

/-- `ShardedCache.Expire`: mutate an existing entry's expiry in place to
`now + ttl` and report whether the key existed. -/
def scExpire (c : SC) (k : String) (ttl : Int) (now : Int) : Bool × SC :=
  let idx := scSelect c k
  let sh := getShard c idx
  match cowGet sh.store k with
  | none => (false, c)
  | some ent =>
    (true, setShard c idx ⟨cowMutate sh.store k { ent with expireAt := now + ttl }, sh.ev⟩)

/-- `ShardedCache.TTL`: `-1` when the key is missing or has no expiry set,
`-2` when the remaining duration is negative, the remaining duration
otherwise. -/
def scTTL (c : SC) (k : String) (now : Int) : Int :=
  let sh := getShard c (scSelect c k)
  match cowGet sh.store k with
  | none => -1
  | some ent =>
    if ent.expireAt == 0 then -1
    else
      let d := ent.expireAt - now
      if d < 0 then -2 else d

/-! ## Facade operation sequences -/

/-- One public facade operation (with the wall-clock instant at which it
runs; `Close` only touches the write policy and is omitted). -/
inductive CacheOp where
  | get (k : String) (now : Int)
  | put (k : String) (v : GoVal) (now : Int)
  | putTTL (k : String) (v : GoVal) (ttl : Int) (now : Int)
  | remove (k : String)
  | expire (k : String) (ttl : Int) (now : Int)
  | ttl (k : String) (now : Int)
  deriving Repr

/-- The key an operation addresses. -/
def CacheOp.key : CacheOp → String
  | .get k _ => k
  | .put k _ _ => k
  | .putTTL k _ _ _ => k
  | .remove k => k
  | .expire k _ _ => k
  | .ttl k _ => k

/-- Apply one facade operation to the cache state (return values are
discarded here; they are replayed where a claim needs them). -/
def scStep (c : SC) : CacheOp → SC
  | .get k now => (scGet c k now).2
  | .put k v now => scPut c k v now
  | .putTTL k v ttl now => scPutWithTTL c k v ttl now
  | .remove k => scRemove c k
  | .expire k ttl now => (scExpire c k ttl now).2
  | .ttl _ _ => c

/-- Run a sequence of facade operations. -/
def scRun (c : SC) (ops : List CacheOp) : SC :=
  ops.foldl scStep c

/-! ## Eviction-policy operation sequences

Claims about the eviction policies quantify over arbitrary call sequences of
the four `eviction.Policy` methods; these are replayed from the fresh policy
state. -/

/-- One call of the `eviction.Policy` interface. -/
inductive PolOp where
  | onGet (k : String)
  | onPut (k : String)
  | remove (k : String)
  | evict
  deriving DecidableEq, Repr

/-- Apply one policy call to an LRU state. -/
def lruStep (l : List String) : PolOp → List String
  | .onGet k => lruOnGet l k
  | .onPut k => lruOnPut l k
  | .remove k => lruRemove l k
  | .evict => (lruEvict l).2

/-- Run a call sequence against a fresh LRU. -/
def lruRun (ops : List PolOp) : List String :=
  ops.foldl lruStep []

/-- Apply one policy call to an LFU state. -/
def lfuStep (s : Lfu) : PolOp → Lfu
  | .onGet k => lfuOnGet s k
  | .onPut k => lfuOnPut s k
  | .remove k => lfuRemove s k
  | .evict => (lfuEvict s).2

/-- Run a call sequence against a fresh LFU. -/
def lfuRun (ops : List PolOp) : Lfu :=
  ops.foldl lfuStep lfuNew

/-! ### Instrumented LRU

To state what `lru.Evict` selects, the LRU sequence is annotated with the
instant (operation counter) of each tracked key's last *touch*: its first
insertion (`OnPut` of an untracked key) or any hit read (`OnGet` of a
tracked key).  The annotated run mirrors `lruStep` exactly — erasing its
projection recovers the source model — and carries no extra choice. -/

/-- One step of the touch-annotated LRU: the list pairs each tracked key with
the time of its last touch, head first; the counter advances every call. -/
def lruIStep (s : List (String × Nat) × Nat) (op : PolOp) :
    List (String × Nat) × Nat :=
  match op with
  | .onGet k =>
    (if k ∈ s.1.map Prod.fst then (k, s.2) :: s.1.eraseP (fun p => p.1 == k) else s.1,
     s.2 + 1)
  | .onPut k =>
    (if k ∈ s.1.map Prod.fst then s.1 else (k, s.2) :: s.1, s.2 + 1)
  | .remove k => (s.1.eraseP (fun p => p.1 == k), s.2 + 1)
  | .evict => (s.1.dropLast, s.2 + 1)

/-- Run the touch-annotated LRU from the fresh state. -/
def lruIRun (ops : List PolOp) : List (String × Nat) × Nat :=
  ops.foldl lruIStep ([], 0)

/-! ## Copy-on-write store operation sequences -/

/-- One mutation of a `cowStore`. -/
inductive CowOp where
  | put (k : String) (e : CacheEntry)
  | del (k : String)
  deriving DecidableEq, Repr

/-- Apply one mutation. -/
def cowStep (s : CowStore) : CowOp → CowStore
  | .put k e => cowPut s k e
  | .del k => cowDelete s k

/-- Run a mutation sequence against a fresh store. -/
def cowRun (ops : List CowOp) : CowStore :=
  ops.foldl cowStep cowNew

/-! ## Write-back policy (`writepolicy/write_back.go`)

The bounded channel, the producers and the single worker goroutine form a
concurrent system; it is modelled as a transition system over explicit
states, with one transition per atomic event:

* a producer's `OnWrite` either enqueues (channel not full, not closed) or
  drops (channel full);
* the worker dequeues one request and forwards it to `store.Put`, or — once
  the channel is closed and drained — its `range` loop ends and
  `wg.Done()` runs;
* `Close()` closes the channel; `wg.Wait()` (the second half of `Close`)
  returns only in states with `exited = true`.

Sending on a closed Go channel panics (a `select` with `default` does not
guard against that), so no transition enqueues after `closed`. -/

/-- One pending write (`writeReq`; the context is irrelevant to the claims). -/
structure WBReq where
  key : String
  value : GoVal
  deriving DecidableEq, Repr

/-- A snapshot of the write-back policy: the channel's buffer capacity and
current content, whether `close(w.ch)` happened, whether the worker returned,
everything forwarded to `store.Put` so far, and everything successfully
enqueued so far. -/
structure WBState where
  buffer : Nat
  queue : List WBReq
  closed : Bool
  exited : Bool
  stored : List WBReq
  accepted : List WBReq
  deriving DecidableEq, Repr

/-- `NewWriteBackPolicy(store, buffer)`: empty channel, worker running. -/
def wbInit (buffer : Nat) : WBState :=
  ⟨buffer, [], false, false, [], []⟩

/-- The atomic events of the write-back policy. -/
inductive WBStep : WBState → WBState → Prop
  | enqueue (s : WBState) (req : WBReq) (hc : s.closed = false)
      (hq : s.queue.length < s.buffer) :
      WBStep s { s with queue := s.queue ++ [req], accepted := s.accepted ++ [req] }
  | dropFull (s : WBState) (req : WBReq) (hc : s.closed = false)
      (hq : ¬ s.queue.length < s.buffer) :
      WBStep s s
  | work (s : WBState) (req : WBReq) (rest : List WBReq)
      (hq : s.queue = req :: rest) (hx : s.exited = false) :
      WBStep s { s with queue := rest, stored := s.stored ++ [req] }
  | exitWorker (s : WBState) (hq : s.queue = []) (hc : s.closed = true)
      (hx : s.exited = false) :
      WBStep s { s with exited := true }
  | closeCh (s : WBState) (hc : s.closed = false) :
      WBStep s { s with closed := true }

/-- Reachability by any interleaving of the atomic events. -/
inductive WBReach : WBState → WBState → Prop
  | refl (s : WBState) : WBReach s s
  | tail {s t u : WBState} : WBReach s t → WBStep t u → WBReach s u

/-! ## Invariants of the sharded cache

`ShardCore` collects the structural well-formedness of one shard: the store
snapshot binds each key once, the size counter agrees with the snapshot, the
eviction policy's bookkeeping is internally consistent and mirrors exactly
the keys physically present in the store, and the sentinel `""` is not used
as a key.  `ShardInv` adds the occupancy bound of claim C8. -/

/-- Whether an eviction policy currently tracks a key (`nodes`/`set`
membership in the Go structures). -/
def evTracks : EvPolicy → String → Prop
  | .lru l, k => k ∈ l
  | .lfu s, k => s.nodes k ≠ none
  | .fifo s, k => s.set k = true

/-- Internal consistency of a policy's bookkeeping: the LRU list is
duplicate-free; every LFU bucket holds exactly the keys recorded at that
frequency; the FIFO queue is duplicate-free and agrees with its membership
set. -/
def EvWF : EvPolicy → Prop
  | .lru l => l.Nodup
  | .lfu s => ∀ f k, k ∈ s.freqMap f ↔ s.nodes k = some f
  | .fifo s => s.queue.Nodup ∧ ∀ k, s.set k = true ↔ k ∈ s.queue

/-- The policy-specific condition under which `Evict` names a victim.  For
LRU and FIFO a non-empty tracking structure suffices (nothing extra to
record); LFU additionally needs its `minFreq` bucket to be non-empty,
because `Evict`/`Remove` leave `minFreq` stale. -/
def EvReady : EvPolicy → Prop
  | .lru _ => True
  | .lfu s => s.freqMap s.minFreq ≠ []
  | .fifo _ => True

/-- Structural well-formedness of one shard. -/
structure ShardCore (sh : Shard) : Prop where
  nodup : (sh.store.data.map Prod.fst).Nodup
  size_eq : sh.store.size = sh.store.data.length
  wf : EvWF sh.ev
  mirror : ∀ x, evTracks sh.ev x ↔ x ∈ sh.store.data.map Prod.fst
  noempty : ¬ evTracks sh.ev ""

/-- The per-shard invariant: structure plus the occupancy bound
(`T = capacity / shardCount`), and eviction readiness whenever the shard
is full. -/
structure ShardInv (T : Nat) (sh : Shard) : Prop where
  core : ShardCore sh
  bound : sh.store.size ≤ T
  ready : sh.store.size = T → EvReady sh.ev

/-- The whole-cache invariant. -/
def CacheInv (c : SC) : Prop :=
  ∀ sh ∈ c.shards, ShardInv (c.capacity / c.shards.length) sh

/-- All operations of a sequence use non-empty keys (the facade treats the
policy answer `""` as "no victim", so `""` must not be a genuine key). -/
def opsOK (ops : List CacheOp) : Bool :=
  ops.all (fun op => op.key ≠ "")

/-! ## Concrete example configurations (used by witnesses and
counterexamples) -/

/-- A loader whose backing store is empty and error-free. -/
def egLoaderEmpty : String → GoVal × GoErr := fun _ => (none, none)

/-- A loader that always fails. -/
def egLoaderErr : String → GoVal × GoErr := fun _ => (none, some "boom")

/-- A loader that always succeeds with the value 7. -/
def egLoaderVal : String → GoVal × GoErr := fun _ => (some 7, none)

/-- An engine with no expiration strategy, no refresh hook, no write policy. -/
def egCfgPlain : EngineCfg := ⟨.noExp, false, false, egLoaderEmpty⟩

/-- An engine with a sliding 10-unit TTL and a write policy. -/
def egCfgSliding : EngineCfg := ⟨.expireAfterAccess 10, false, true, egLoaderEmpty⟩

/-- An engine with a failing loader. -/
def egCfgErr : EngineCfg := ⟨.noExp, false, false, egLoaderErr⟩

/-- A trivial stand-in for the FNV-32a hash. -/
def egHash : String → Nat := fun s => s.length

/-- An example entry. -/
def egEnt : CacheEntry := ⟨"e", some 3, 1, 1, 0⟩

/-- A mutation sequence exercising the copy-on-write store. -/
def egCowOps : List CowOp :=
  [.put "a" egEnt, .put "b" ⟨"b", some 4, 2, 2, 9⟩, .put "a" ⟨"a", some 5, 3, 3, 0⟩,
   .del "b", .del "b", .del "nope"]

/-- The policy call sequence that drives the LFU into its stale-`minFreq`
state: after evicting `a` from the minimum bucket, bucket 1 is empty but
`minFreq` still points at it while `b` (frequency 2) remains tracked. -/
def c4ops : List PolOp := [.onPut "a", .onPut "b", .onGet "b", .evict]

/-- The LRU call sequence refuting claim C5 as stated: `a` is read at time 1,
`b` is inserted later and never read. -/
def c5ops : List PolOp := [.onPut "a", .onGet "a", .onPut "b"]

/-- The state of the write-back policy demo after enqueue, close, drain,
worker exit. -/
def wbDemo : WBState :=
  ⟨2, [], true, true, [⟨"k", some 1⟩], [⟨"k", some 1⟩]⟩

/-! # Theorems -/

/-! ## Claim C3 — the expire-after-access strategy -/

/-- C3: for the expire-after-access strategy with parameter `ttl` and any
entry and time `now`: `IsExpired` is true iff the entry's expiry is set and
`now` is past it; `OnWrite` sets `createdAt` and `lastAccessedAt` to `now`
and sets the expiry to `now + ttl` only when no expiry is already set (an
explicit caller-supplied expiry is untouched); `OnAccess` unconditionally
sets the expiry to `now + ttl`. -/
theorem C3_expire_after_access_spec (ttl : Int) (ent : CacheEntry) (now : Int) :
    (eaaIsExpired ent now = true ↔ ent.expireAt ≠ 0 ∧ ent.expireAt < now)
    ∧ (eaaOnWrite ttl ent now).createdAt = now
    ∧ (eaaOnWrite ttl ent now).lastAccessedAt = now
    ∧ (eaaOnWrite ttl ent now).expireAt =
        (if ent.expireAt = 0 then now + ttl else ent.expireAt)
    ∧ (eaaOnAccess ttl ent now).expireAt = now + ttl := by
  refine ⟨?_, ?_, ?_, ?_, rfl⟩
  · simp [eaaIsExpired]
  · simp only [eaaOnWrite]
    split <;> rfl
  · simp only [eaaOnWrite]
    split <;> rfl
  · simp only [eaaOnWrite, beq_iff_eq]
    split <;> simp_all

/-! ## Claim C2 — the engine's write hook gates write-policy forwarding -/

/-- C2: `CacheEngine.OnWrite` first runs the expiration strategy's write hook
and then forwards the write to the configured write policy if and only if the
entry's expiry is still unset (zero) after the hook ran; with the sliding-TTL
strategy configured, a forwarded write forces the hook to have left the
expiry unset. -/
theorem C2_engine_onwrite_forwards_iff (cfg : EngineCfg) (ent : CacheEntry)
    (now : Int) (hwp : cfg.hasWritePolicy = true) :
    ((engineOnWrite cfg ent now).2 = true ↔ (engineOnWrite cfg ent now).1.expireAt = 0)
    ∧ (engineOnWrite cfg ent now).1 = expOnWrite cfg.expiration ent now
    ∧ (∀ ttl, cfg.expiration = .expireAfterAccess ttl →
        (engineOnWrite cfg ent now).2 = true →
        (eaaOnWrite ttl ent now).expireAt = 0) := by
  refine ⟨?_, ?_, ?_⟩
  · simp only [engineOnWrite]
    split <;> simp_all
  · simp only [engineOnWrite]
    split <;> rfl
  · intro ttl hexp hfwd
    have h1 : (engineOnWrite cfg ent now).1.expireAt = 0 := by
      revert hfwd
      simp only [engineOnWrite]
      split <;> simp_all
    have h2 : (engineOnWrite cfg ent now).1 = expOnWrite cfg.expiration ent now := by
      simp only [engineOnWrite]
      split <;> rfl
    rw [h2, hexp] at h1
    exact h1

/-- Witness for C2: a concrete engine with a write policy and a sliding TTL
of 10, written at instant 3 — the hook sets the expiry to 13, so the write is
not forwarded. -/
theorem C2_engine_onwrite_forwards_iff_witness :
    (engineOnWrite egCfgSliding egEnt 3).2 = true ↔
      (engineOnWrite egCfgSliding egEnt 3).1.expireAt = 0 :=
  (C2_engine_onwrite_forwards_iff egCfgSliding egEnt 3 rfl).1

/-! ## Claim C1 — TTL sentinel values (code bug) -/

/-- C1 (code-bug evaluation): `TTL` on a key that is absent returns `-1`,
although both the spec and the `Cache` interface documentation in the source
require `-2` for an absent key (the implementation merges the absent case
into the no-expiry case: `if !ok || ent.ExpireAt.IsZero() { return -1 }`). -/
theorem C1_ttl_absent_key_returns_neg_one :
    scTTL (newShardedCache 1 10 .LRU egCfgPlain egHash) "k" 5 = -1 ∧
    scTTL (newShardedCache 1 10 .LRU egCfgPlain egHash) "k" 5 ≠ -2 := by
  constructor <;> decide

/-! ## Claim C4 — LFU eviction (code bug) -/

/-- C4 (code-bug evaluation): after `OnPut a; OnPut b; OnGet b; Evict`
(which evicts `a`, the only minimum-frequency key), a further `Evict`
returns the sentinel `""` even though `b` is still tracked with frequency 2
— `Evict` deleted the last key of the `minFreq` bucket without advancing
`minFreq`, so the claim that `""` is returned only when no key is tracked
fails, as does the facade's reliance on `Evict` to free space. -/
theorem C4_lfu_evict_empty_string_while_tracked :
    (lfuEvict (lfuRun c4ops)).1 = "" ∧ (lfuRun c4ops).nodes "b" = some 2 := by
  constructor <;> decide

/-! ## Association-list helper lemmas -/

/-- Rewriting the entry bound to one key does not change the key sequence. -/
theorem map_fst_replace (l : List (String × CacheEntry)) (k : String) (e : CacheEntry) :
    (l.map (fun p => if p.1 = k then (k, e) else p)).map Prod.fst = l.map Prod.fst := by
  induction l with
  | nil => rfl
  | cons p ps ih =>
    simp only [List.map_cons, ih]
    by_cases h : p.1 = k
    · rw [if_pos h]
      simp [h]
    · rw [if_neg h]

/-- The key sequence produced by `putAssoc`. -/
theorem putAssoc_map_fst (l : List (String × CacheEntry)) (k : String) (e : CacheEntry) :
    (putAssoc l k e).map Prod.fst =
      if k ∈ l.map Prod.fst then l.map Prod.fst else l.map Prod.fst ++ [k] := by
  unfold putAssoc
  by_cases h : k ∈ l.map Prod.fst
  · rw [if_pos h, if_pos h, map_fst_replace]
  · rw [if_neg h, if_neg h, List.map_append]
    rfl

/-- The key sequence after deleting a key. -/
theorem filter_map_fst (l : List (String × CacheEntry)) (k : String) :
    (l.filter (fun p => p.1 ≠ k)).map Prod.fst =
      (l.map Prod.fst).filter (fun x => x ≠ k) := by
  induction l with
  | nil => rfl
  | cons p ps ih =>
    simp only [List.filter_cons, List.map_cons]
    by_cases h : p.1 = k
    · rw [if_neg (by simp [h]), if_neg (by simp [h]), ih]
    · rw [if_pos (by simp [h]), if_pos (by simp [h]), List.map_cons, ih]

/-- Deleting a key that is present in a duplicate-free list shortens it by
exactly one. -/
theorem length_filter_of_nodup (l : List String) (k : String) (hn : l.Nodup)
    (hk : k ∈ l) : (l.filter (fun x => x ≠ k)).length + 1 = l.length := by
  induction l with
  | nil => cases hk
  | cons a as ih =>
    rcases List.nodup_cons.mp hn with ⟨ha, has⟩
    by_cases h : a = k
    · subst h
      have hfil : as.filter (fun x => x ≠ a) = as := by
        apply List.filter_eq_self.mpr
        intro x hx
        simp only [decide_eq_true_eq]
        intro hxa
        exact ha (hxa ▸ hx)
      rw [List.filter_cons, if_neg (by simp), hfil]
      simp
    · have hk' : k ∈ as := by
        cases List.mem_cons.mp hk with
        | inl h' => exact absurd h'.symm h
        | inr h' => exact h'
      have hlen := ih has hk'
      simp only [List.filter_cons, if_pos (by simpa using h : decide (a ≠ k) = true),
        List.length_cons]
      omega

/-- Deleting an absent key leaves the list unchanged. -/
theorem filter_eq_self_of_not_mem_fst (l : List (String × CacheEntry)) (k : String)
    (hk : k ∉ l.map Prod.fst) : l.filter (fun p => p.1 ≠ k) = l :=
  List.filter_eq_self.mpr (fun p hp => by
    simp only [decide_eq_true_eq]
    exact fun h => hk (h ▸ List.mem_map_of_mem Prod.fst hp))

/-! ## Claim C10 — the copy-on-write store's size counter -/

/-- One store mutation preserves the size/snapshot agreement and
duplicate-freeness of the snapshot's keys. -/
theorem cowStep_wf (s : CowStore) (op : CowOp) (h1 : s.size = s.data.length)
    (h2 : (s.data.map Prod.fst).Nodup) :
    (cowStep s op).size = (cowStep s op).data.length
    ∧ ((cowStep s op).data.map Prod.fst).Nodup := by
  cases op with
  | put k e =>
    refine ⟨rfl, ?_⟩
    show ((putAssoc s.data k e).map Prod.fst).Nodup
    rw [putAssoc_map_fst]
    split
    · exact h2
    · rename_i hk
      exact List.nodup_append.mpr ⟨h2, List.nodup_singleton k,
        fun x hx hx' => hk ((List.mem_singleton.mp hx') ▸ hx)⟩
  | del k =>
    refine ⟨rfl, ?_⟩
    show ((s.data.filter (fun p => p.1 ≠ k)).map Prod.fst).Nodup
    rw [filter_map_fst]
    exact h2.filter _

/-- Well-formedness of the store after any mutation sequence. -/
theorem cowFold_wf (ops : List CowOp) : ∀ (s : CowStore),
    s.size = s.data.length → ((s.data.map Prod.fst).Nodup) →
    (ops.foldl cowStep s).size = (ops.foldl cowStep s).data.length
    ∧ (((ops.foldl cowStep s).data.map Prod.fst).Nodup) := by
  induction ops with
  | nil => exact fun s h1 h2 => ⟨h1, h2⟩
  | cons op rest ih =>
    intro s h1 h2
    simp only [List.foldl_cons]
    exact ih _ (cowStep_wf s op h1 h2).1 (cowStep_wf s op h1 h2).2

/-- C10: after any sequence of `Put`/`Delete` operations on the
copy-on-write store, `Size()` equals the number of distinct keys in the
published snapshot (the snapshot binds each key once and the counter equals
its length); `Put` of an existing key leaves the size unchanged, and
`Delete` of an absent key leaves the store — key set and size — unchanged. -/
theorem C10_cow_size_distinct_keys (ops : List CowOp) :
    (cowRun ops).size = (cowRun ops).data.length
    ∧ ((cowRun ops).data.map Prod.fst).Nodup
    ∧ (∀ k e, k ∈ (cowRun ops).data.map Prod.fst →
        (cowPut (cowRun ops) k e).size = (cowRun ops).size)
    ∧ (∀ k, k ∉ (cowRun ops).data.map Prod.fst →
        cowDelete (cowRun ops) k = cowRun ops) := by
  obtain ⟨h1, h2⟩ := cowFold_wf ops cowNew rfl List.nodup_nil
  have h1' : (cowRun ops).size = (cowRun ops).data.length := h1
  have h2' : ((cowRun ops).data.map Prod.fst).Nodup := h2
  refine ⟨h1', h2', ?_, ?_⟩
  · intro k e hk
    show (putAssoc (cowRun ops).data k e).length = (cowRun ops).size
    have heq : (putAssoc (cowRun ops).data k e).map Prod.fst =
        (cowRun ops).data.map Prod.fst := by
      rw [putAssoc_map_fst, if_pos hk]
    have hlen := congrArg List.length heq
    simp only [List.length_map] at hlen
    omega
  · intro k hk
    show (⟨(cowRun ops).data.filter (fun p => p.1 ≠ k),
          ((cowRun ops).data.filter (fun p => p.1 ≠ k)).length⟩ : CowStore) = cowRun ops
    rw [filter_eq_self_of_not_mem_fst _ _ hk]
    cases hs : cowRun ops with
    | mk d sz =>
      rw [hs] at h1'
      simp only at h1'
      simp [h1']

/-- Witness for C10: a concrete mutation sequence; re-`Put` of `"a"` keeps
the size, `Delete` of the absent `"zz"` keeps the store. -/
theorem C10_cow_size_distinct_keys_witness :
    (cowRun egCowOps).size = (cowRun egCowOps).data.length
    ∧ (cowPut (cowRun egCowOps) "a" egEnt).size = (cowRun egCowOps).size
    ∧ cowDelete (cowRun egCowOps) "zz" = cowRun egCowOps :=
  ⟨(C10_cow_size_distinct_keys egCowOps).1,
   (C10_cow_size_distinct_keys egCowOps).2.2.1 "a" egEnt (by decide),
   (C10_cow_size_distinct_keys egCowOps).2.2.2 "zz" (by decide)⟩

/-! ## Claim C9 — closing the write-back policy drains the queue -/

/-- The write-back safety invariant, by induction over any interleaving:
what was accepted is exactly what was forwarded plus what is still queued,
and a worker that has exited leaves a closed, empty channel behind. -/
theorem wb_invariant (b : Nat) (s : WBState) (h : WBReach (wbInit b) s) :
    s.stored ++ s.queue = s.accepted
    ∧ (s.exited = true → s.queue = [] ∧ s.closed = true) := by
  induction h with
  | refl => exact ⟨rfl, fun hx => by cases hx⟩
  | tail hreach hstep ih =>
    obtain ⟨hacc, hex⟩ := ih
    cases hstep with
    | enqueue req hc hq =>
      refine ⟨by rw [← List.append_assoc, hacc], ?_⟩
      intro hx
      have hcl := (hex hx).2
      rw [hc] at hcl
      cases hcl
    | dropFull req hc hq => exact ⟨hacc, hex⟩
    | work req rest hq hx =>
      refine ⟨by rw [List.append_assoc]; simpa [hq] using hacc, ?_⟩
      intro hx'
      have hx'' : _ = true := hx'
      rw [hx] at hx''
      cases hx''
    | exitWorker hq hc hx =>
      exact ⟨hacc, fun _ => ⟨hq, hc⟩⟩
    | closeCh hc =>
      exact ⟨hacc, fun hx => ⟨(hex hx).1, rfl⟩⟩

/-- C9: in every reachable state of the write-back policy in which the
worker has exited (which is exactly when `Close`'s `wg.Wait()` may return),
everything ever accepted into the queue has been forwarded to the backing
store, in order; moreover once the channel is closed no step changes the
accepted list (no new items are accepted after `Close`).  In particular,
when M writes were enqueued (M ≤ buffer, so every enqueue transition was
enabled and nothing was dropped) and `Close` then returns, all M writes have
reached the backing store. -/
theorem C9_writeback_close_flushes (b : Nat) (s : WBState)
    (h : WBReach (wbInit b) s) :
    (s.exited = true → s.stored = s.accepted)
    ∧ (s.closed = true → ∀ t, WBStep s t → t.accepted = s.accepted) := by
  obtain ⟨hacc, hex⟩ := wb_invariant b s h
  constructor
  · intro hx
    obtain ⟨hq, _⟩ := hex hx
    simpa [hq] using hacc
  · intro hc t hstep
    cases hstep with
    | enqueue req hc' hq => rw [hc] at hc'; cases hc'
    | dropFull req hc' hq => rfl
    | work req rest hq hx => rfl
    | exitWorker hq hc' hx => rfl
    | closeCh hc' => rw [hc] at hc'

/-- Witness for C9: buffer 2; enqueue one write, close, let the worker drain
and exit — the reached state has forwarded everything accepted. -/
theorem C9_writeback_close_flushes_witness : wbDemo.stored = wbDemo.accepted := by
  have h1 : WBStep (wbInit 2) ⟨2, [⟨"k", some 1⟩], false, false, [], [⟨"k", some 1⟩]⟩ := by
    have := WBStep.enqueue (wbInit 2) ⟨"k", some 1⟩ rfl (by simp [wbInit])
    simpa [wbInit] using this
  have h2 : WBStep (⟨2, [⟨"k", some 1⟩], false, false, [], [⟨"k", some 1⟩]⟩ : WBState)
      ⟨2, [⟨"k", some 1⟩], true, false, [], [⟨"k", some 1⟩]⟩ :=
    WBStep.closeCh _ rfl
  have h3 : WBStep (⟨2, [⟨"k", some 1⟩], true, false, [], [⟨"k", some 1⟩]⟩ : WBState)
      ⟨2, [], true, false, [⟨"k", some 1⟩], [⟨"k", some 1⟩]⟩ := by
    have := WBStep.work (⟨2, [⟨"k", some 1⟩], true, false, [], [⟨"k", some 1⟩]⟩ : WBState)
      ⟨"k", some 1⟩ [] rfl rfl
    simpa using this
  have h4 : WBStep (⟨2, [], true, false, [⟨"k", some 1⟩], [⟨"k", some 1⟩]⟩ : WBState)
      wbDemo :=
    WBStep.exitWorker _ rfl rfl rfl
  have hreach : WBReach (wbInit 2) wbDemo :=
    .tail (.tail (.tail (.tail (.refl _) h1) h2) h3) h4
  exact (C9_writeback_close_flushes 2 wbDemo hreach).1 rfl

/-! ## Claim C5 — what LRU eviction selects -/

/-- Erasing a key from the annotated list projects to erasing it from the
key list. -/
theorem eraseP_map_fst (l : List (String × Nat)) (k : String) :
    (l.eraseP (fun p => p.1 == k)).map Prod.fst = (l.map Prod.fst).erase k := by
  induction l with
  | nil => rfl
  | cons p ps ih =>
    simp only [List.eraseP_cons, List.map_cons, List.erase_cons]
    by_cases h : p.1 = k
    · simp [h]
    · have hbeq : (p.1 == k) = false := by simp [h]
      simp [hbeq, ih]

/-- Each annotated LRU step projects to the source LRU step. -/
theorem lruIStep_proj (s : List (String × Nat) × Nat) (op : PolOp) :
    (lruIStep s op).1.map Prod.fst = lruStep (s.1.map Prod.fst) op := by
  cases op with
  | onGet k =>
    simp only [lruIStep, lruStep, lruOnGet]
    by_cases h : k ∈ s.1.map Prod.fst
    · rw [if_pos h, if_pos h]
      simp [eraseP_map_fst]
    · rw [if_neg h, if_neg h]
  | onPut k =>
    simp only [lruIStep, lruStep, lruOnPut]
    by_cases h : k ∈ s.1.map Prod.fst
    · rw [if_pos h, if_pos h]
    · rw [if_neg h, if_neg h]
      rfl
  | remove k =>
    simpa only [lruIStep, lruStep, lruRemove] using eraseP_map_fst s.1 k
  | evict =>
    simp only [lruIStep, lruStep, lruEvict]
    cases hs : s.1 with
    | nil => rfl
    | cons p ps =>
      have hne : (p :: ps).map Prod.fst ≠ [] := by simp
      rw [List.getLast?_eq_getLast_of_ne_nil hne]
      simp [List.map_dropLast]

/-- The annotated LRU run projects to the source LRU run. -/
theorem lruIRun_proj (ops : List PolOp) :
    (lruIRun ops).1.map Prod.fst = lruRun ops := by
  suffices h : ∀ s : List (String × Nat) × Nat,
      (ops.foldl lruIStep s).1.map Prod.fst = ops.foldl lruStep (s.1.map Prod.fst) from
    h ([], 0)
  induction ops with
  | nil => intro s; rfl
  | cons op rest ih =>
    intro s
    simp only [List.foldl_cons]
    rw [ih, lruIStep_proj]

/-- Each annotated step keeps the list sorted by strictly decreasing touch
time and all touch times below the clock. -/
theorem lruIStep_sorted (s : List (String × Nat) × Nat) (op : PolOp)
    (hp : s.1.Pairwise (fun a b => b.2 < a.2)) (hb : ∀ p ∈ s.1, p.2 < s.2) :
    (lruIStep s op).1.Pairwise (fun a b => b.2 < a.2)
    ∧ ∀ p ∈ (lruIStep s op).1, p.2 < (lruIStep s op).2 := by
  cases op with
  | onGet k =>
    by_cases h : k ∈ s.1.map Prod.fst
    · simp only [lruIStep, if_pos h]
      constructor
      · refine List.pairwise_cons.mpr ⟨?_, hp.sublist (List.eraseP_sublist _)⟩
        intro p hpmem
        exact hb p ((List.eraseP_sublist _).subset hpmem)
      · intro p hpmem
        rcases List.mem_cons.mp hpmem with h' | h'
        · rw [h']
          exact Nat.lt_succ_self _
        · exact Nat.lt_succ_of_lt (hb p ((List.eraseP_sublist _).subset h'))
    · simp only [lruIStep, if_neg h]
      exact ⟨hp, fun p hpmem => Nat.lt_succ_of_lt (hb p hpmem)⟩
  | onPut k =>
    by_cases h : k ∈ s.1.map Prod.fst
    · simp only [lruIStep, if_pos h]
      exact ⟨hp, fun p hpmem => Nat.lt_succ_of_lt (hb p hpmem)⟩
    · simp only [lruIStep, if_neg h]
      constructor
      · exact List.pairwise_cons.mpr ⟨fun p hpmem => hb p hpmem, hp⟩
      · intro p hpmem
        rcases List.mem_cons.mp hpmem with h' | h'
        · rw [h']
          exact Nat.lt_succ_self _
        · exact Nat.lt_succ_of_lt (hb p h')
  | remove k =>
    simp only [lruIStep]
    exact ⟨hp.sublist (List.eraseP_sublist _),
      fun p hpmem => Nat.lt_succ_of_lt (hb p ((List.eraseP_sublist _).subset hpmem))⟩
  | evict =>
    simp only [lruIStep]
    exact ⟨hp.sublist (List.dropLast_sublist _),
      fun p hpmem => Nat.lt_succ_of_lt (hb p ((List.dropLast_sublist _).subset hpmem))⟩

/-- The annotated run is sorted by strictly decreasing touch time. -/
theorem lruIRun_sorted (ops : List PolOp) :
    (lruIRun ops).1.Pairwise (fun a b => b.2 < a.2)
    ∧ ∀ p ∈ (lruIRun ops).1, p.2 < (lruIRun ops).2 := by
  suffices h : ∀ s : List (String × Nat) × Nat,
      s.1.Pairwise (fun a b => b.2 < a.2) → (∀ p ∈ s.1, p.2 < s.2) →
      (ops.foldl lruIStep s).1.Pairwise (fun a b => b.2 < a.2)
      ∧ ∀ p ∈ (ops.foldl lruIStep s).1, p.2 < (ops.foldl lruIStep s).2 from
    h ([], 0) List.Pairwise.nil (fun p hpmem => by cases hpmem)
  induction ops with
  | nil => exact fun s hp hb => ⟨hp, hb⟩
  | cons op rest ih =>
    intro s hp hb
    simp only [List.foldl_cons]
    obtain ⟨hp', hb'⟩ := lruIStep_sorted s op hp hb
    exact ih _ hp' hb'

/-- C5 (amended): after any policy call sequence, `lru.Evict` returns the
tracked key whose last *touch* — first insertion via `OnPut`, or any read of
a tracked key via `OnGet` — is strictly the oldest among all tracked keys
(the annotated run projects onto the source model, and its tail has a
strictly smaller touch time than every other tracked key); moreover `OnPut`
of an already-tracked key is a no-op and does not refresh recency. -/
theorem C5_lru_evict_least_recently_touched (ops : List PolOp)
    (hne : (lruIRun ops).1 ≠ []) :
    (lruIRun ops).1.map Prod.fst = lruRun ops
    ∧ (lruEvict (lruRun ops)).1 = ((lruIRun ops).1.getLast hne).1
    ∧ (∀ p ∈ (lruIRun ops).1.dropLast, ((lruIRun ops).1.getLast hne).2 < p.2)
    ∧ (∀ l k, k ∈ l → lruOnPut l k = l) := by
  have hproj := lruIRun_proj ops
  refine ⟨hproj, ?_, ?_, fun l k hk => by simp [lruOnPut, hk]⟩
  · have hlast : (lruRun ops).getLast? = some (((lruIRun ops).1.getLast hne).1) := by
      rw [← hproj, List.getLast?_map, List.getLast?_eq_getLast_of_ne_nil hne]
      rfl
    simp [lruEvict, hlast]
  · obtain ⟨hpw, _⟩ := lruIRun_sorted ops
    have hsplit := List.dropLast_append_getLast hne
    rw [← hsplit] at hpw
    obtain ⟨-, -, hrel⟩ := List.pairwise_append.mp hpw
    intro p hpmem
    exact hrel p hpmem _ (List.mem_singleton.mpr rfl)

/-- Counterexample to C5 as stated: in `OnPut a; OnGet a; OnPut b`, the key
`b` is tracked and never read via `OnGet` (the sequence contains no
`OnGet b`), so "least recently read, ties among never-read keys by insertion
order" requires `b`; the code evicts `a` instead, because `OnPut` inserts a
new key at the most-recently-used end, ranking it above all earlier-touched
keys. -/
theorem C5_counterexample_never_read_key_not_evicted :
    (lruEvict (lruRun c5ops)).1 = "a" ∧ "b" ∈ lruRun c5ops
    ∧ (∀ op ∈ c5ops, op ≠ PolOp.onGet "b") := by
  refine ⟨by decide, by decide, by decide⟩

/-- Witness for C5 (amended), at the concrete sequence `c5ops`: the
projection holds and `Evict` names `a`, the key with the oldest touch. -/
theorem C5_lru_evict_least_recently_touched_witness :
    (lruIRun c5ops).1.map Prod.fst = lruRun c5ops
    ∧ (lruEvict (lruRun c5ops)).1 = ((lruIRun c5ops).1.getLast (by decide)).1 :=
  ⟨(C5_lru_evict_least_recently_touched c5ops (by decide)).1,
   (C5_lru_evict_least_recently_touched c5ops (by decide)).2.1⟩

/-! ## Facade helper lemmas -/

/-- Reading back the shard just written. -/
theorem getD_set_self_lt (l : List Shard) (i : Nat) (x d : Shard)
    (h : i < l.length) : (l.set i x).getD i d = x := by
  rw [List.getD_eq_getElem?_getD, List.getElem?_set_self h]
  rfl

/-- `find?` after rewriting an existing binding finds the new pair. -/
theorem find_replace_self (l : List (String × CacheEntry)) (k : String) (e : CacheEntry)
    (h : k ∈ l.map Prod.fst) :
    (l.map (fun p => if p.1 = k then (k, e) else p)).find? (fun p => p.1 == k) =
      some (k, e) := by
  induction l with
  | nil => cases h
  | cons p ps ih =>
    simp only [List.map_cons]
    by_cases hp : p.1 = k
    · rw [if_pos hp]
      exact List.find?_cons_of_pos _ (by simp)
    · rw [if_neg hp, List.find?_cons_of_neg _ (by simp [hp])]
      apply ih
      simp only [List.map_cons, List.mem_cons] at h
      rcases h with h' | h'
      · exact absurd h'.symm hp
      · exact h'

/-- `find?` after appending a fresh binding finds it. -/
theorem find_append_new (l : List (String × CacheEntry)) (k : String) (e : CacheEntry)
    (h : k ∉ l.map Prod.fst) :
    (l ++ [(k, e)]).find? (fun p => p.1 == k) = some (k, e) := by
  induction l with
  | nil => exact List.find?_cons_of_pos _ (by simp)
  | cons p ps ih =>
    have hp : ¬ p.1 = k := by
      intro hpk
      exact h (by simp [hpk])
    rw [List.cons_append, List.find?_cons_of_neg _ (by simp [hp])]
    exact ih (fun hk => h (by
      simp only [List.map_cons, List.mem_cons]
      exact Or.inr hk))

/-- A `Put` into the store makes the key readable with the written entry. -/
theorem cowGet_cowPut_self (s : CowStore) (k : String) (e : CacheEntry) :
    cowGet (cowPut s k e) k = some e := by
  show cowGet ⟨putAssoc s.data k e, (putAssoc s.data k e).length⟩ k = some e
  unfold cowGet putAssoc
  by_cases h : k ∈ s.data.map Prod.fst
  · rw [if_pos h, find_replace_self s.data k e h]
  · rw [if_neg h, find_append_new s.data k e h]

/-- The expiration write hook never changes the stored value. -/
theorem expOnWrite_value (ec : ExpCfg) (ent : CacheEntry) (now : Int) :
    (expOnWrite ec ent now).value = ent.value := by
  cases ec with
  | noExp => rfl
  | expireAfterAccess t =>
    simp only [expOnWrite, eaaOnWrite]
    split <;> rfl

/-- The expiration access hook never changes the stored value. -/
theorem expOnAccess_value (ec : ExpCfg) (ent : CacheEntry) (now : Int) :
    (expOnAccess ec ent now).value = ent.value := by
  cases ec <;> rfl

/-- The entry component of the engine write hook is the strategy's write
hook. -/
theorem engineOnWrite_fst (cfg : EngineCfg) (ent : CacheEntry) (now : Int) :
    (engineOnWrite cfg ent now).1 = expOnWrite cfg.expiration ent now := by
  simp only [engineOnWrite]
  split <;> rfl

/-- An entry written with no explicit TTL is not expired at the instant it
was written, for any non-negative sliding TTL. -/
theorem engineIsExpired_after_write (cfg : EngineCfg) (ent : CacheEntry) (now : Int)
    (h0 : ent.expireAt = 0)
    (hexp : ∀ t, cfg.expiration = ExpCfg.expireAfterAccess t → 0 ≤ t) :
    engineIsExpired cfg (engineOnWrite cfg ent now).1 now = false := by
  rw [engineOnWrite_fst]
  cases hcfg : cfg.expiration with
  | noExp => simp [engineIsExpired, hcfg, expIsExpired]
  | expireAfterAccess t =>
    have ht := hexp t hcfg
    have hnot : ¬ (now + t < now) := by omega
    simp only [engineIsExpired, hcfg, expIsExpired, expOnWrite, eaaOnWrite]
    simp [h0, eaaIsExpired, hnot]

/-- The shard list length, hash function, engine and capacity survive a
`PutWithTTL` (only one shard, the log and the metrics change). -/
theorem scPutWithTTL_length (c : SC) (k : String) (v : GoVal) (ttl now : Int) :
    (scPutWithTTL c k v ttl now).shards.length = c.shards.length := by
  show (c.shards.set (scSelect c k) _).length = c.shards.length
  exact List.length_set _ _ _

/-- The shard list after `PutWithTTL`, explicitly. -/
theorem scPutWithTTL_shards (c : SC) (k : String) (v : GoVal) (ttl now : Int) :
    (scPutWithTTL c k v ttl now).shards =
      c.shards.set (scSelect c k)
        ⟨cowPut (shardEvictStage (c.capacity / c.shards.length) (getShard c (scSelect c k))).1.store k
            (engineOnWrite c.engine ⟨k, v, now, now, if ttl > 0 then now + ttl else 0⟩ now).1,
         evOnPut (shardEvictStage (c.capacity / c.shards.length) (getShard c (scSelect c k))).1.ev k⟩ :=
  rfl

/-- Selecting the same key after a `PutWithTTL` lands on the same shard
index. -/
theorem scSelect_scPutWithTTL (c : SC) (k k' : String) (v : GoVal) (ttl now : Int) :
    scSelect (scPutWithTTL c k v ttl now) k' = scSelect c k' := by
  unfold scSelect
  rw [scPutWithTTL_length]
  rfl

/-- Reading a key straight after writing it returns the entry produced by
the engine's write hook. -/
theorem scPutWithTTL_get_back (c : SC) (k : String) (v : GoVal) (ttl now : Int)
    (hsh : 0 < c.shards.length) :
    cowGet (getShard (scPutWithTTL c k v ttl now)
        (scSelect (scPutWithTTL c k v ttl now) k)).store k
      = some (engineOnWrite c.engine ⟨k, v, now, now, if ttl > 0 then now + ttl else 0⟩ now).1 := by
  rw [scSelect_scPutWithTTL]
  unfold getShard
  have hlt : scSelect c k < c.shards.length := Nat.mod_lt _ hsh
  rw [scPutWithTTL_shards, getD_set_self_lt _ _ _ _ hlt]
  exact cowGet_cowPut_self _ _ _

/-! ## Claim C6 — Put/Get round trip -/

/-- C6: for every key and value, `Put(k, v)` immediately followed by
`Get(k)` (same instant, same cache) returns `v` with no error — provided
the cache has at least one shard and any configured sliding TTL is
non-negative (a negative TTL makes the entry expire the moment it is
written, and a shard count of zero makes the Go constructor divide by
zero). -/
theorem C6_put_get_roundtrip (c : SC) (k : String) (v : GoVal) (now : Int)
    (hsh : 0 < c.shards.length)
    (hexp : ∀ t, c.engine.expiration = ExpCfg.expireAfterAccess t → 0 ≤ t) :
    (scGet (scPut c k v now) k now).1 = (v, none) := by
  have hback := scPutWithTTL_get_back c k v 0 now hsh
  have hnotexp : engineIsExpired c.engine
      (engineOnWrite c.engine ⟨k, v, now, now, 0⟩ now).1 now = false :=
    engineIsExpired_after_write c.engine _ now rfl hexp
  show (scGet (scPutWithTTL c k v 0 now) k now).1 = (v, none)
  simp only [scGet]
  rw [hback]
  have heng : (scPutWithTTL c k v 0 now).engine = c.engine := rfl
  rw [heng]
  rw [engineOnWrite_fst] at hnotexp
  simp [hnotexp, engineOnRead, engineOnWrite_fst, expOnAccess_value, expOnWrite_value]

/-- Witness for C6: a two-shard LFU cache with a sliding TTL of 10; putting
`42` under `"k"` at instant 100 and reading it back at the same instant
yields `42` with no error. -/
theorem C6_put_get_roundtrip_witness :
    (scGet (scPut (newShardedCache 2 10 .LFU egCfgSliding egHash) "k" (some 42) 100)
      "k" 100).1 = (some 42, none) :=
  C6_put_get_roundtrip (newShardedCache 2 10 .LFU egCfgSliding egHash) "k" (some 42) 100
    (by decide)
    (fun t ht => by
      cases ht
      decide)

/-! ## Claim C7 — loader error / nil propagation on a miss -/

/-- C7: on a cache miss (key absent from its shard), a loader error is
propagated verbatim to the caller with a nil value; a nil loader value with
no error yields `(nil, nil)`; in both cases no shard changes — nothing is
cached.  Only a non-nil loader value is cached (an implicit `Put` stores an
entry holding exactly that value under the missed key) and returned with no
error. -/
theorem C7_miss_loader_propagation (c : SC) (k : String) (now : Int)
    (hsh : 0 < c.shards.length)
    (hmiss : cowGet (getShard c (scSelect c k)).store k = none) :
    ((c.engine.loader k).2 ≠ none →
        (scGet c k now).1 = (none, (c.engine.loader k).2)
        ∧ (scGet c k now).2.shards = c.shards)
    ∧ (c.engine.loader k = (none, none) →
        (scGet c k now).1 = (none, none) ∧ (scGet c k now).2.shards = c.shards)
    ∧ (∀ v : Int, c.engine.loader k = (some v, none) →
        (scGet c k now).1 = (some v, none)
        ∧ cowGet (getShard (scGet c k now).2 (scSelect c k)).store k =
            some (engineOnWrite c.engine ⟨k, some v, now, now, 0⟩ now).1
        ∧ (engineOnWrite c.engine ⟨k, some v, now, now, 0⟩ now).1.value = some v) := by
  have hget : scGet c k now = scMiss c k now := by
    simp only [scGet]
    rw [hmiss]
  refine ⟨?_, ?_, ?_⟩
  · intro herr
    rw [hget]
    simp only [scMiss]
    rw [if_pos (Or.inl herr)]
    exact ⟨rfl, rfl⟩
  · intro hnil
    rw [hget]
    simp only [scMiss]
    rw [hnil]
    simp
  · intro v hv
    rw [hget]
    have h2 : scMiss c k now =
        ((some v, none),
         scPut { c with metrics := { c.metrics with miss := c.metrics.miss + 1 } }
           k (some v) now) := by
      simp only [scMiss]
      rw [hv]
      simp
    rw [h2]
    refine ⟨rfl, ?_, ?_⟩
    · have hb := scPutWithTTL_get_back
        { c with metrics := { c.metrics with miss := c.metrics.miss + 1 } }
        k (some v) 0 now hsh
      rw [scSelect_scPutWithTTL] at hb
      exact hb
    · rw [engineOnWrite_fst, expOnWrite_value]

/-- Witness for C7: a one-shard cache with a failing loader — `Get` on the
missing key `"k"` returns the loader's error and leaves the shards
untouched. -/
theorem C7_miss_loader_propagation_witness :
    (scGet (newShardedCache 1 4 .FIFO egCfgErr egHash) "k" 0).1 = (none, some "boom")
    ∧ (scGet (newShardedCache 1 4 .FIFO egCfgErr egHash) "k" 0).2.shards =
        (newShardedCache 1 4 .FIFO egCfgErr egHash).shards := by
  have h := (C7_miss_loader_propagation (newShardedCache 1 4 .FIFO egCfgErr egHash)
    "k" 0 (by decide) rfl).1 (by decide)
  exact ⟨h.1, h.2⟩

/-! ## Claim C8 — per-shard occupancy bound

The proof is an invariant argument over all facade operation sequences:
`ShardCore` (store/policy well-formedness and mirroring) plus the occupancy
bound and eviction readiness are preserved by every operation.  The
policy-level lemmas come first. -/

/-- Membership in a bucket after a map insert. -/
theorem mem_bucketAdd (b : List String) (k x : String) :
    x ∈ bucketAdd b k ↔ x ∈ b ∨ x = k := by
  unfold bucketAdd
  split
  · rename_i h
    exact ⟨Or.inl, fun hx => hx.elim id (fun he => he ▸ h)⟩
  · simp [List.mem_append]

/-- Membership in a bucket after a map delete. -/
theorem mem_filter_ne (b : List String) (k x : String) :
    x ∈ b.filter (fun y => y ≠ k) ↔ x ∈ b ∧ x ≠ k := by
  simp [List.mem_filter]

/-- `lru.OnGet` does not change the tracked key set. -/
theorem lruOnGet_mem (l : List String) (k x : String) :
    x ∈ lruOnGet l k ↔ x ∈ l := by
  unfold lruOnGet
  split
  · rename_i h
    by_cases hx : x = k
    · subst hx
      simp [h]
    · rw [List.mem_cons]
      rw [List.mem_erase_of_ne hx]
      exact ⟨fun hc => hc.elim (fun he => absurd he hx) id, Or.inr⟩
  · exact Iff.rfl

/-- `lru.OnGet` preserves duplicate-freeness. -/
theorem lruOnGet_nodup (l : List String) (k : String) (h : l.Nodup) :
    (lruOnGet l k).Nodup := by
  unfold lruOnGet
  split
  · refine List.nodup_cons.mpr ⟨?_, h.erase k⟩
    intro hc
    exact absurd ((h.mem_erase_iff).mp hc).1 (by simp)
  · exact h

/-- `lru.OnPut` tracks exactly the old keys plus the new one. -/
theorem lruOnPut_mem (l : List String) (k x : String) :
    x ∈ lruOnPut l k ↔ x = k ∨ x ∈ l := by
  unfold lruOnPut
  split
  · rename_i h
    exact ⟨Or.inr, fun hx => hx.elim (fun he => he ▸ h) id⟩
  · exact List.mem_cons

/-- `lru.OnPut` preserves duplicate-freeness. -/
theorem lruOnPut_nodup (l : List String) (k : String) (h : l.Nodup) :
    (lruOnPut l k).Nodup := by
  unfold lruOnPut
  split
  · exact h
  · rename_i hk
    exact List.nodup_cons.mpr ⟨hk, h⟩

/-- `lru.Remove` drops exactly the removed key. -/
theorem lruRemove_mem (l : List String) (k x : String) (hn : l.Nodup) :
    x ∈ lruRemove l k ↔ x ∈ l ∧ x ≠ k := by
  unfold lruRemove
  rw [hn.mem_erase_iff]
  exact ⟨fun ⟨a, b⟩ => ⟨b, a⟩, fun ⟨a, b⟩ => ⟨b, a⟩⟩

/-- What `lru.Evict` picks from a non-empty duplicate-free list: a tracked
key; afterwards exactly that key is gone. -/
theorem lruEvict_spec (l : List String) (hn : l.Nodup) (hne : l ≠ []) :
    (lruEvict l).1 ∈ l
    ∧ (∀ x, x ∈ (lruEvict l).2 ↔ x ∈ l ∧ x ≠ (lruEvict l).1)
    ∧ (lruEvict l).2.Nodup := by
  have hsplit := List.dropLast_append_getLast hne
  have hn2 : (l.dropLast ++ [l.getLast hne]).Nodup := by rw [hsplit]; exact hn
  obtain ⟨hnd, -, hdisj⟩ := List.nodup_append.mp hn2
  unfold lruEvict
  rw [List.getLast?_eq_getLast_of_ne_nil hne]
  refine ⟨List.getLast_mem hne, ?_, hn.sublist (List.dropLast_sublist _)⟩
  intro x
  constructor
  · intro hx
    refine ⟨(List.dropLast_sublist _).subset hx, ?_⟩
    intro hxe
    exact hdisj hx (by rw [hxe]; exact List.mem_singleton.mpr rfl)
  · rintro ⟨hxl, hxne⟩
    rw [← hsplit] at hxl
    rcases List.mem_append.mp hxl with h' | h'
    · exact h'
    · exact absurd (List.mem_singleton.mp h') hxne

/-- `fifo.Evict` on a well-formed non-empty FIFO: the front key is tracked
and afterwards exactly it is gone; well-formedness survives. -/
theorem fifoEvict_spec (s : Fifo) (hn : s.queue.Nodup)
    (hwf : ∀ x, s.set x = true ↔ x ∈ s.queue) (hne : s.queue ≠ []) :
    s.set (fifoEvict s).1 = true
    ∧ (∀ x, (fifoEvict s).2.set x = true ↔ s.set x = true ∧ x ≠ (fifoEvict s).1)
    ∧ (fifoEvict s).2.queue.Nodup
    ∧ (∀ x, (fifoEvict s).2.set x = true ↔ x ∈ (fifoEvict s).2.queue) := by
  cases hq : s.queue with
  | nil => exact absurd hq hne
  | cons a rest =>
    have hna : a ∉ rest := (List.nodup_cons.mp (hq ▸ hn)).1
    have hnr : rest.Nodup := (List.nodup_cons.mp (hq ▸ hn)).2
    simp only [fifoEvict, hq]
    refine ⟨(hwf a).mpr (hq ▸ List.mem_cons_self a rest), ?_, hnr, ?_⟩
    · intro x
      by_cases hx : x = a
      · subst hx
        simp
      · simp only [if_neg hx]
        exact ⟨fun h => ⟨h, hx⟩, fun ⟨h, _⟩ => h⟩
    · intro x
      by_cases hx : x = a
      · subst hx
        simp [hna]
      · simp only [if_neg hx]
        rw [hwf x, hq, List.mem_cons]
        exact ⟨fun h => h.elim (fun he => absurd he hx) id, Or.inr⟩

/-- `lfu.OnGet` does not change the tracked key set. -/
theorem lfuOnGet_tracks (s : Lfu) (k x : String) :
    ((lfuOnGet s k).nodes x ≠ none) ↔ s.nodes x ≠ none := by
  cases hk : s.nodes k with
  | none => simp [lfuOnGet, hk]
  | some old =>
    simp only [lfuOnGet, hk]
    by_cases hx : x = k
    · subst hx
      simp [hk]
    · simp [hx]

/-- `lfu.OnGet` preserves the bucket-partition invariant. -/
theorem lfuOnGet_wf (s : Lfu) (k : String)
    (hwf : ∀ f x, x ∈ s.freqMap f ↔ s.nodes x = some f) :
    ∀ f x, x ∈ (lfuOnGet s k).freqMap f ↔ (lfuOnGet s k).nodes x = some f := by
  cases hk : s.nodes k with
  | none => simpa [lfuOnGet, hk] using hwf
  | some old =>
    intro f x
    simp only [lfuOnGet, hk]
    by_cases hf1 : f = old + 1
    · subst hf1
      rw [if_pos rfl, if_neg (by omega : ¬ old + 1 = old), mem_bucketAdd]
      by_cases hx : x = k
      · subst hx
        simp [hwf, hk]
      · simp [hx, hwf]
    · rw [if_neg hf1]
      by_cases hf2 : f = old
      · subst hf2
        rw [if_pos rfl, mem_filter_ne]
        by_cases hx : x = k
        · subst hx
          simp [hwf, hk]
        · simp [hx, hwf]
      · rw [if_neg hf2]
        by_cases hx : x = k
        · subst hx
          rw [hwf, hk]
          constructor
          · intro h
            exact absurd (Option.some.inj h).symm hf2
          · intro h
            rw [if_pos rfl] at h
            exact absurd (Option.some.inj h).symm hf1
        · simp [hx, hwf]

/-- `lfu.OnGet` keeps the minimum bucket non-empty. -/
theorem lfuOnGet_ready (s : Lfu) (k : String)
    (hr : s.freqMap s.minFreq ≠ []) :
    (lfuOnGet s k).freqMap (lfuOnGet s k).minFreq ≠ [] := by
  cases hk : s.nodes k with
  | none => simpa [lfuOnGet, hk] using hr
  | some old =>
    simp only [lfuOnGet, hk]
    by_cases hcond : (s.freqMap old).filter (fun y => y ≠ k) = [] ∧ s.minFreq = old
    · rw [if_pos hcond, hcond.2, if_pos rfl]
      exact List.ne_nil_of_mem ((mem_bucketAdd _ _ _).mpr (Or.inr rfl))
    · rw [if_neg hcond]
      by_cases h1 : s.minFreq = old + 1
      · rw [if_pos h1]
        exact List.ne_nil_of_mem ((mem_bucketAdd _ _ _).mpr (Or.inr rfl))
      · rw [if_neg h1]
        by_cases h2 : s.minFreq = old
        · rw [if_pos h2]
          exact fun hb => hcond ⟨hb, h2⟩
        · rw [if_neg h2]
          exact hr

/-- `lfu.OnPut` tracks exactly the old keys plus the new one. -/
theorem lfuOnPut_tracks (s : Lfu) (k x : String) :
    ((lfuOnPut s k).nodes x ≠ none) ↔ x = k ∨ s.nodes x ≠ none := by
  cases hk : s.nodes k with
  | some v =>
    simp only [lfuOnPut, hk]
    constructor
    · exact Or.inr
    · rintro (rfl | h)
      · simp [hk]
      · exact h
  | none =>
    simp only [lfuOnPut, hk]
    by_cases hx : x = k
    · subst hx
      simp
    · simp [hx]

/-- `lfu.OnPut` preserves the bucket-partition invariant. -/
theorem lfuOnPut_wf (s : Lfu) (k : String)
    (hwf : ∀ f x, x ∈ s.freqMap f ↔ s.nodes x = some f) :
    ∀ f x, x ∈ (lfuOnPut s k).freqMap f ↔ (lfuOnPut s k).nodes x = some f := by
  cases hk : s.nodes k with
  | some v => simpa [lfuOnPut, hk] using hwf
  | none =>
    intro f x
    simp only [lfuOnPut, hk]
    by_cases hf : f = 1
    · subst hf
      rw [if_pos rfl, mem_bucketAdd]
      by_cases hx : x = k
      · subst hx
        simp [hwf, hk]
      · simp [hx, hwf]
    · rw [if_neg hf]
      by_cases hx : x = k
      · subst hx
        rw [hwf, hk]
        simp only [if_pos rfl]
        constructor
        · intro h
          exact Option.noConfusion h
        · intro h
          exact absurd (Option.some.inj h).symm hf
      · simp [hx, hwf]

/-- `lfu.OnPut` of an untracked key leaves the (reset) minimum bucket
non-empty. -/
theorem lfuOnPut_ready (s : Lfu) (k : String) (hk : s.nodes k = none) :
    (lfuOnPut s k).freqMap (lfuOnPut s k).minFreq ≠ [] := by
  simp only [lfuOnPut, hk, if_true]
  exact List.ne_nil_of_mem ((mem_bucketAdd _ _ _).mpr (Or.inr rfl))

/-- `lfu.Remove` drops exactly the removed key. -/
theorem lfuRemove_tracks (s : Lfu) (k x : String) :
    ((lfuRemove s k).nodes x ≠ none) ↔ (s.nodes x ≠ none ∧ x ≠ k) := by
  cases hk : s.nodes k with
  | none =>
    simp only [lfuRemove, hk]
    constructor
    · intro h
      refine ⟨h, ?_⟩
      rintro rfl
      exact h hk
    · exact fun h => h.1
  | some f0 =>
    simp only [lfuRemove, hk]
    by_cases hx : x = k
    · subst hx
      simp
    · simp [hx]

/-- `lfu.Remove` preserves the bucket-partition invariant. -/
theorem lfuRemove_wf (s : Lfu) (k : String)
    (hwf : ∀ f x, x ∈ s.freqMap f ↔ s.nodes x = some f) :
    ∀ f x, x ∈ (lfuRemove s k).freqMap f ↔ (lfuRemove s k).nodes x = some f := by
  cases hk : s.nodes k with
  | none => simpa [lfuRemove, hk] using hwf
  | some f0 =>
    intro f x
    simp only [lfuRemove, hk]
    by_cases hf : f = f0
    · subst hf
      rw [if_pos rfl, mem_filter_ne]
      by_cases hx : x = k
      · subst hx
        simp [hwf, hk]
      · simp [hx, hwf]
    · rw [if_neg hf]
      by_cases hx : x = k
      · subst hx
        rw [hwf, hk]
        simp only [if_pos rfl]
        constructor
        · intro h
          exact absurd (Option.some.inj h) (fun he => hf he.symm)
        · intro h
          exact Option.noConfusion h
      · simp [hx, hwf]

/-- What `lfu.Evict` picks when the minimum bucket is non-empty: a tracked
key; afterwards exactly that key is gone and the partition invariant
survives. -/
theorem lfuEvict_spec (s : Lfu)
    (hwf : ∀ f x, x ∈ s.freqMap f ↔ s.nodes x = some f)
    (hr : s.freqMap s.minFreq ≠ []) :
    s.nodes (lfuEvict s).1 ≠ none
    ∧ (∀ x, ((lfuEvict s).2.nodes x ≠ none) ↔ (s.nodes x ≠ none ∧ x ≠ (lfuEvict s).1))
    ∧ (∀ f x, x ∈ (lfuEvict s).2.freqMap f ↔ (lfuEvict s).2.nodes x = some f) := by
  cases hq : s.freqMap s.minFreq with
  | nil => exact absurd hq hr
  | cons a rest =>
    have ha : s.nodes a = some s.minFreq :=
      (hwf s.minFreq a).mp (hq ▸ List.mem_cons_self a rest)
    simp only [lfuEvict, hq]
    refine ⟨by simp [ha], ?_, ?_⟩
    · intro x
      by_cases hx : x = a
      · subst hx
        simp
      · simp [hx]
    · intro f x
      by_cases hf : f = s.minFreq
      · subst hf
        rw [if_pos rfl, ← hq, mem_filter_ne]
        by_cases hx : x = a
        · subst hx
          simp
        · simp [hx, hwf]
      · rw [if_neg hf]
        by_cases hx : x = a
        · subst hx
          rw [hwf, ha]
          simp only [if_pos rfl]
          constructor
          · intro h
            exact absurd (Option.some.inj h) (fun he => hf he.symm)
          · intro h
            exact Option.noConfusion h
        · simp [hx, hwf]

/-- `Policy.OnPut` through the dispatch: well-formedness survives, the new
key joins the tracked set, and putting an untracked key makes the policy
evict-ready. -/
theorem evOnPut_spec (ev : EvPolicy) (k : String) (hwf : EvWF ev) :
    EvWF (evOnPut ev k)
    ∧ (∀ x, evTracks (evOnPut ev k) x ↔ x = k ∨ evTracks ev x)
    ∧ (¬ evTracks ev k → EvReady (evOnPut ev k)) := by
  cases ev with
  | lru l =>
    exact ⟨lruOnPut_nodup l k hwf, fun x => lruOnPut_mem l k x, fun _ => trivial⟩
  | lfu s =>
    exact ⟨lfuOnPut_wf s k hwf, fun x => lfuOnPut_tracks s k x,
      fun h => lfuOnPut_ready s k (not_not.mp h)⟩
  | fifo s =>
    obtain ⟨hnq, hset⟩ := hwf
    refine ⟨?_, ?_, fun _ => trivial⟩
    · show EvWF (.fifo (fifoOnPut s k))
      unfold fifoOnPut
      split
      · exact ⟨hnq, hset⟩
      · rename_i hk
        refine ⟨?_, ?_⟩
        · refine List.nodup_append.mpr ⟨hnq, List.nodup_singleton k, ?_⟩
          intro x hx hx'
          rw [List.mem_singleton] at hx'
          subst hx'
          rw [hset x] at hk
          exact hk hx
        · intro x
          by_cases hx : x = k
          · subst hx
            simp
          · show (if x = k then true else s.set x) = true ↔ _
            rw [if_neg hx, hset x, List.mem_append, List.mem_singleton]
            exact ⟨Or.inl, fun h => h.elim id (fun he => absurd he hx)⟩
    · intro x
      show evTracks (.fifo (fifoOnPut s k)) x ↔ _
      unfold fifoOnPut
      split
      · rename_i hk
        exact ⟨Or.inr, fun h => h.elim (fun he => he ▸ hk) id⟩
      · show (if x = k then true else s.set x) = true ↔ _
        by_cases hx : x = k
        · subst hx
          simp
        · rw [if_neg hx]
          exact ⟨Or.inr, fun h => h.elim (fun he => absurd he hx) id⟩

/-- `Policy.OnGet` through the dispatch: well-formedness, the tracked set
and evict-readiness survive. -/
theorem evOnGet_spec (ev : EvPolicy) (k : String) (hwf : EvWF ev) :
    EvWF (evOnGet ev k)
    ∧ (∀ x, evTracks (evOnGet ev k) x ↔ evTracks ev x)
    ∧ (EvReady ev → EvReady (evOnGet ev k)) := by
  cases ev with
  | lru l =>
    exact ⟨lruOnGet_nodup l k hwf, fun x => lruOnGet_mem l k x, fun _ => trivial⟩
  | lfu s =>
    exact ⟨lfuOnGet_wf s k hwf, fun x => lfuOnGet_tracks s k x, lfuOnGet_ready s k⟩
  | fifo s =>
    exact ⟨hwf, fun x => Iff.rfl, fun h => h⟩

/-- `Policy.Remove` through the dispatch: well-formedness survives and
exactly the removed key leaves the tracked set. -/
theorem evRemove_spec (ev : EvPolicy) (k : String) (hwf : EvWF ev) :
    EvWF (evRemove ev k)
    ∧ (∀ x, evTracks (evRemove ev k) x ↔ evTracks ev x ∧ x ≠ k) := by
  cases ev with
  | lru l =>
    exact ⟨hwf.erase k, fun x => lruRemove_mem l k x hwf⟩
  | lfu s =>
    exact ⟨lfuRemove_wf s k hwf, fun x => lfuRemove_tracks s k x⟩
  | fifo s =>
    obtain ⟨hnq, hset⟩ := hwf
    by_cases hk : s.set k = true
    · constructor
      · show EvWF (.fifo (fifoRemove s k))
        simp only [fifoRemove, if_pos hk]
        refine ⟨hnq.erase k, ?_⟩
        intro x
        show (if x = k then false else s.set x) = true ↔ x ∈ s.queue.erase k
        rw [hnq.mem_erase_iff]
        by_cases hx : x = k
        · subst hx
          simp
        · rw [if_neg hx, hset x]
          exact ⟨fun h => ⟨hx, h⟩, fun h => h.2⟩
      · intro x
        show evTracks (.fifo (fifoRemove s k)) x ↔ _
        simp only [fifoRemove, if_pos hk]
        show (if x = k then false else s.set x) = true ↔ _
        by_cases hx : x = k
        · subst hx
          simp
        · rw [if_neg hx]
          exact ⟨fun h => ⟨h, hx⟩, fun h => h.1⟩
    · constructor
      · show EvWF (.fifo (fifoRemove s k))
        simp only [fifoRemove, if_neg hk]
        exact ⟨hnq, hset⟩
      · intro x
        show evTracks (.fifo (fifoRemove s k)) x ↔ _
        simp only [fifoRemove, if_neg hk]
        show s.set x = true ↔ _
        constructor
        · intro h
          refine ⟨h, ?_⟩
          rintro rfl
          exact hk h
        · exact fun h => h.1

/-- `Policy.Remove` of an untracked key is a no-op. -/
theorem evRemove_untracked (ev : EvPolicy) (k : String) (h : ¬ evTracks ev k) :
    evRemove ev k = ev := by
  cases ev with
  | lru l =>
    show EvPolicy.lru (l.erase k) = .lru l
    rw [List.erase_of_not_mem (by exact h)]
  | lfu s =>
    have hk : s.nodes k = none := not_not.mp h
    show EvPolicy.lfu (lfuRemove s k) = .lfu s
    simp [lfuRemove, hk]
  | fifo s =>
    show EvPolicy.fifo (fifoRemove s k) = .fifo s
    unfold fifoRemove
    rw [if_neg (by exact h)]

/-- `Policy.Evict` through the dispatch, on a well-formed, non-empty,
evict-ready policy: the victim is tracked, afterwards exactly the victim is
gone, and well-formedness survives. -/
theorem evEvict_spec (ev : EvPolicy) (hwf : EvWF ev) (hne : ∃ x, evTracks ev x)
    (hrdy : EvReady ev) :
    evTracks ev (evEvict ev).1
    ∧ (∀ x, evTracks (evEvict ev).2 x ↔ evTracks ev x ∧ x ≠ (evEvict ev).1)
    ∧ EvWF (evEvict ev).2 := by
  cases ev with
  | lru l =>
    obtain ⟨x0, hx0⟩ := hne
    obtain ⟨h1, h2, h3⟩ := lruEvict_spec l hwf (List.ne_nil_of_mem hx0)
    exact ⟨h1, h2, h3⟩
  | lfu s =>
    obtain ⟨h1, h2, h3⟩ := lfuEvict_spec s hwf hrdy
    exact ⟨h1, h2, h3⟩
  | fifo s =>
    obtain ⟨hnq, hset⟩ := hwf
    obtain ⟨x0, hx0⟩ := hne
    have hne' : s.queue ≠ [] := by
      intro h0
      have hx := (hset x0).mp hx0
      rw [h0] at hx
      cases hx
    obtain ⟨h1, h2, h3, h4⟩ := fifoEvict_spec s hnq hset hne'
    exact ⟨h1, h2, h3, h4⟩

/-- The capacity-check stage preserves the shard's structural invariant and
leaves it strictly under the threshold. -/
theorem shardEvictStage_spec (T : Nat) (sh : Shard) (hT : 1 ≤ T)
    (hinv : ShardInv T sh) :
    ShardCore (shardEvictStage T sh).1 ∧ (shardEvictStage T sh).1.store.size < T := by
  obtain ⟨hcore, hbound, hready⟩ := hinv
  by_cases hge : sh.store.size ≥ T
  · have hsz : sh.store.size = T := le_antisymm hbound hge
    have hlen : sh.store.data.length = T := by rw [← hcore.size_eq]; exact hsz
    have hdne : sh.store.data ≠ [] := by
      intro h0
      rw [h0] at hlen
      simp at hlen
      omega
    obtain ⟨p, hp⟩ := List.exists_mem_of_ne_nil sh.store.data hdne
    have htr : evTracks sh.ev p.1 :=
      (hcore.mirror p.1).mpr (List.mem_map_of_mem Prod.fst hp)
    obtain ⟨hek, htrs, hwf'⟩ := evEvict_spec sh.ev hcore.wf ⟨p.1, htr⟩ (hready hsz)
    have hekne : (evEvict sh.ev).1 ≠ "" := by
      intro h0
      rw [h0] at hek
      exact hcore.noempty hek
    have hekmem : (evEvict sh.ev).1 ∈ sh.store.data.map Prod.fst := (hcore.mirror _).mp hek
    simp only [shardEvictStage, if_pos hge, if_pos hekne]
    have hmf := filter_map_fst sh.store.data (evEvict sh.ev).1
    have hfl : (sh.store.data.filter (fun p => p.1 ≠ (evEvict sh.ev).1)).length + 1
        = sh.store.data.length := by
      have h1 := congrArg List.length hmf
      rw [List.length_map] at h1
      have h2 := length_filter_of_nodup _ _ hcore.nodup hekmem
      rw [List.length_map] at h2
      omega
    refine ⟨⟨?_, rfl, hwf', ?_, ?_⟩, ?_⟩
    · show ((sh.store.data.filter (fun p => p.1 ≠ (evEvict sh.ev).1)).map Prod.fst).Nodup
      rw [hmf]
      exact hcore.nodup.filter _
    · intro x
      show evTracks (evEvict sh.ev).2 x ↔
        x ∈ (sh.store.data.filter (fun p => p.1 ≠ (evEvict sh.ev).1)).map Prod.fst
      rw [hmf, htrs x, mem_filter_ne, hcore.mirror x]
    · show ¬ evTracks (evEvict sh.ev).2 ""
      intro hc
      exact hcore.noempty ((htrs "").mp hc).1
    · show (sh.store.data.filter (fun p => p.1 ≠ (evEvict sh.ev).1)).length < T
      omega
  · simp only [shardEvictStage, if_neg hge]
    exact ⟨hcore, lt_of_not_ge hge⟩

/-- Inserting a non-`""` key into a strictly-under-threshold well-formed
shard restores the full invariant (the store grows by at most one). -/
theorem shardInsert_inv (T : Nat) (sh : Shard) (k : String) (e : CacheEntry)
    (hcore : ShardCore sh) (hk : k ≠ "") (hlt : sh.store.size < T) :
    ShardInv T ⟨cowPut sh.store k e, evOnPut sh.ev k⟩ := by
  obtain ⟨hwf', htr, hready'⟩ := evOnPut_spec sh.ev k hcore.wf
  have hkeys := putAssoc_map_fst sh.store.data k e
  have hsz := hcore.size_eq
  by_cases hmem : k ∈ sh.store.data.map Prod.fst
  · rw [if_pos hmem] at hkeys
    have hlen : (putAssoc sh.store.data k e).length = sh.store.data.length := by
      have h1 := congrArg List.length hkeys
      rw [List.length_map, List.length_map] at h1
      exact h1
    refine ⟨⟨?_, rfl, hwf', ?_, ?_⟩, ?_, ?_⟩
    · show ((putAssoc sh.store.data k e).map Prod.fst).Nodup
      rw [hkeys]
      exact hcore.nodup
    · intro x
      show evTracks (evOnPut sh.ev k) x ↔ x ∈ (putAssoc sh.store.data k e).map Prod.fst
      rw [hkeys, htr x, hcore.mirror x]
      exact ⟨fun h => h.elim (fun he => by rw [he]; exact hmem) id, Or.inr⟩
    · show ¬ evTracks (evOnPut sh.ev k) ""
      intro hc
      rcases (htr "").mp hc with he | ht
      · exact hk he.symm
      · exact hcore.noempty ht
    · show (putAssoc sh.store.data k e).length ≤ T
      omega
    · show (putAssoc sh.store.data k e).length = T → EvReady (evOnPut sh.ev k)
      intro h
      exfalso
      omega
  · rw [if_neg hmem] at hkeys
    have hlen : (putAssoc sh.store.data k e).length = sh.store.data.length + 1 := by
      have h1 := congrArg List.length hkeys
      rw [List.length_map, List.length_append, List.length_map] at h1
      simpa using h1
    refine ⟨⟨?_, rfl, hwf', ?_, ?_⟩, ?_, ?_⟩
    · show ((putAssoc sh.store.data k e).map Prod.fst).Nodup
      rw [hkeys]
      refine List.nodup_append.mpr ⟨hcore.nodup, List.nodup_singleton k, ?_⟩
      intro x hx hx'
      rw [List.mem_singleton] at hx'
      subst hx'
      exact hmem hx
    · intro x
      show evTracks (evOnPut sh.ev k) x ↔ x ∈ (putAssoc sh.store.data k e).map Prod.fst
      rw [hkeys, htr x, hcore.mirror x, List.mem_append, List.mem_singleton]
      exact ⟨fun h => h.elim Or.inr Or.inl, fun h => h.elim Or.inr Or.inl⟩
    · show ¬ evTracks (evOnPut sh.ev k) ""
      intro hc
      rcases (htr "").mp hc with he | ht
      · exact hk he.symm
      · exact hcore.noempty ht
    · show (putAssoc sh.store.data k e).length ≤ T
      omega
    · show (putAssoc sh.store.data k e).length = T → EvReady (evOnPut sh.ev k)
      intro h
      exact hready' (fun ht => hmem ((hcore.mirror k).mp ht))

/-- The full `PutWithTTL` effect on the selected shard preserves the
invariant. -/
theorem shardPut_inv (T : Nat) (sh : Shard) (k : String) (e : CacheEntry)
    (hT : 1 ≤ T) (hinv : ShardInv T sh) (hk : k ≠ "") :
    ShardInv T ⟨cowPut (shardEvictStage T sh).1.store k e,
                evOnPut (shardEvictStage T sh).1.ev k⟩ := by
  obtain ⟨hcore, hlt⟩ := shardEvictStage_spec T sh hT hinv
  exact shardInsert_inv T _ k e hcore hk hlt

/-- An in-place entry mutation (read hook, `Expire`) preserves the
invariant. -/
theorem shardMutate_inv (T : Nat) (sh : Shard) (k : String) (e : CacheEntry)
    (hinv : ShardInv T sh) : ShardInv T ⟨cowMutate sh.store k e, sh.ev⟩ := by
  obtain ⟨⟨hnd, hsz, hwf, hmir, hne⟩, hbound, hready⟩ := hinv
  have hkeys := map_fst_replace sh.store.data k e
  refine ⟨⟨?_, ?_, hwf, ?_, hne⟩, hbound, hready⟩
  · show ((sh.store.data.map fun p => if p.1 = k then (k, e) else p).map Prod.fst).Nodup
    rw [hkeys]
    exact hnd
  · show sh.store.size = (sh.store.data.map fun p => if p.1 = k then (k, e) else p).length
    rw [List.length_map]
    exact hsz
  · intro x
    show evTracks sh.ev x ↔
      x ∈ (sh.store.data.map fun p => if p.1 = k then (k, e) else p).map Prod.fst
    rw [hkeys]
    exact hmir x

/-- The read-hit effect on the selected shard (in-place entry mutation plus
the policy's `OnGet`) preserves the invariant. -/
theorem shardGetHit_inv (T : Nat) (sh : Shard) (k : String) (e : CacheEntry)
    (hinv : ShardInv T sh) :
    ShardInv T ⟨cowMutate sh.store k e, evOnGet sh.ev k⟩ := by
  obtain ⟨⟨hnd, hsz, hwf, hmir, hne⟩, hbound, hready⟩ := hinv
  obtain ⟨hwf', htr, hrdy⟩ := evOnGet_spec sh.ev k hwf
  have hkeys := map_fst_replace sh.store.data k e
  refine ⟨⟨?_, ?_, hwf', ?_, ?_⟩, hbound, fun h => hrdy (hready h)⟩
  · show ((sh.store.data.map fun p => if p.1 = k then (k, e) else p).map Prod.fst).Nodup
    rw [hkeys]
    exact hnd
  · show sh.store.size = (sh.store.data.map fun p => if p.1 = k then (k, e) else p).length
    rw [List.length_map]
    exact hsz
  · intro x
    show evTracks (evOnGet sh.ev k) x ↔
      x ∈ (sh.store.data.map fun p => if p.1 = k then (k, e) else p).map Prod.fst
    rw [hkeys, htr x]
    exact hmir x
  · intro hc
    exact hne ((htr "").mp hc)

/-- The `Remove` effect on the selected shard preserves the invariant. -/
theorem shardRemove_inv (T : Nat) (sh : Shard) (k : String) (hinv : ShardInv T sh) :
    ShardInv T ⟨cowDelete sh.store k, evRemove sh.ev k⟩ := by
  obtain ⟨⟨hnd, hsz, hwf, hmir, hne⟩, hbound, hready⟩ := hinv
  obtain ⟨hwf', htr⟩ := evRemove_spec sh.ev k hwf
  have hmf := filter_map_fst sh.store.data k
  by_cases hmem : k ∈ sh.store.data.map Prod.fst
  · have hfl : (sh.store.data.filter (fun p => p.1 ≠ k)).length + 1
        = sh.store.data.length := by
      have h1 := congrArg List.length hmf
      rw [List.length_map] at h1
      have h2 := length_filter_of_nodup _ _ hnd hmem
      rw [List.length_map] at h2
      omega
    refine ⟨⟨?_, rfl, hwf', ?_, ?_⟩, ?_, ?_⟩
    · show ((sh.store.data.filter (fun p => p.1 ≠ k)).map Prod.fst).Nodup
      rw [hmf]
      exact hnd.filter _
    · intro x
      show evTracks (evRemove sh.ev k) x ↔
        x ∈ (sh.store.data.filter (fun p => p.1 ≠ k)).map Prod.fst
      rw [hmf, htr x, hmir x, mem_filter_ne]
    · show ¬ evTracks (evRemove sh.ev k) ""
      intro hc
      exact hne ((htr "").mp hc).1
    · show (sh.store.data.filter (fun p => p.1 ≠ k)).length ≤ T
      omega
    · show (sh.store.data.filter (fun p => p.1 ≠ k)).length = T → EvReady (evRemove sh.ev k)
      intro h
      exfalso
      omega
  · have hdata : sh.store.data.filter (fun p => p.1 ≠ k) = sh.store.data :=
      filter_eq_self_of_not_mem_fst _ _ hmem
    have hev : evRemove sh.ev k = sh.ev :=
      evRemove_untracked sh.ev k (fun ht => hmem ((hmir k).mp ht))
    rw [hev]
    refine ⟨⟨?_, rfl, hwf, ?_, hne⟩, ?_, ?_⟩
    · show ((sh.store.data.filter (fun p => p.1 ≠ k)).map Prod.fst).Nodup
      rw [hdata]
      exact hnd
    · intro x
      show evTracks sh.ev x ↔ x ∈ (sh.store.data.filter (fun p => p.1 ≠ k)).map Prod.fst
      rw [hdata]
      exact hmir x
    · show (sh.store.data.filter (fun p => p.1 ≠ k)).length ≤ T
      rw [hdata]
      omega
    · show (sh.store.data.filter (fun p => p.1 ≠ k)).length = T → EvReady sh.ev
      rw [hdata]
      intro h
      exact hready (by omega)

/-- The selected shard is one of the cache's shards. -/
theorem getShard_mem (c : SC) (idx : Nat) (h : idx < c.shards.length) :
    getShard c idx ∈ c.shards := by
  unfold getShard
  rw [List.getD_eq_getElem?_getD, List.getElem?_eq_getElem h]
  exact List.getElem_mem h

/-- A positive per-shard threshold forces a positive shard count. -/
theorem hT_pos (c : SC) (hT : 1 ≤ c.capacity / c.shards.length) :
    0 < c.shards.length := by
  rcases Nat.eq_zero_or_pos c.shards.length with h0 | h0
  · rw [h0, Nat.div_zero] at hT
    omega
  · exact h0

/-- The selected index is in bounds. -/
theorem scSelect_lt (c : SC) (k : String) (h : 0 < c.shards.length) :
    scSelect c k < c.shards.length := by
  unfold scSelect
  exact Nat.mod_lt _ h

/-- `PutWithTTL` does not change the per-shard threshold. -/
theorem scPutWithTTL_capacity_div (c : SC) (k : String) (v : GoVal) (ttl now : Int) :
    (scPutWithTTL c k v ttl now).capacity / (scPutWithTTL c k v ttl now).shards.length
      = c.capacity / c.shards.length := by
  rw [scPutWithTTL_length]
  rfl

/-- The shard list after a `Remove`, explicitly. -/
theorem scRemove_shards (c : SC) (k : String) :
    (scRemove c k).shards = c.shards.set (scSelect c k)
      ⟨cowDelete (getShard c (scSelect c k)).store k,
       evRemove (getShard c (scSelect c k)).ev k⟩ := rfl

/-- `Remove` does not change the per-shard threshold. -/
theorem scRemove_capacity_div (c : SC) (k : String) :
    (scRemove c k).capacity / (scRemove c k).shards.length
      = c.capacity / c.shards.length := by
  rw [scRemove_shards, List.length_set]
  rfl

/-- The miss path does not change the per-shard threshold. -/
theorem scMiss_capacity_div (c : SC) (k : String) (now : Int) :
    (scMiss c k now).2.capacity / (scMiss c k now).2.shards.length
      = c.capacity / c.shards.length := by
  simp only [scMiss]
  split
  · rfl
  · exact scPutWithTTL_capacity_div _ _ _ _ _

/-- `Get` does not change the per-shard threshold. -/
theorem scGet_capacity_div (c : SC) (k : String) (now : Int) :
    (scGet c k now).2.capacity / (scGet c k now).2.shards.length
      = c.capacity / c.shards.length := by
  cases hcg : cowGet (getShard c (scSelect c k)).store k with
  | none =>
    simp only [scGet, hcg]
    exact scMiss_capacity_div c k now
  | some ent =>
    simp only [scGet, hcg]
    by_cases hex : engineIsExpired c.engine ent now = true
    · rw [if_pos hex]
      exact (scMiss_capacity_div _ _ _).trans (scRemove_capacity_div _ _)
    · rw [if_neg hex]
      show c.capacity / (c.shards.set (scSelect c k)
          ⟨cowMutate (getShard c (scSelect c k)).store k (engineOnRead c.engine ent now).1,
           evOnGet (getShard c (scSelect c k)).ev k⟩).length
          = c.capacity / c.shards.length
      rw [List.length_set]

/-- `Expire` does not change the per-shard threshold. -/
theorem scExpire_capacity_div (c : SC) (k : String) (ttl now : Int) :
    (scExpire c k ttl now).2.capacity / (scExpire c k ttl now).2.shards.length
      = c.capacity / c.shards.length := by
  simp only [scExpire]
  cases hcg : cowGet (getShard c (scSelect c k)).store k with
  | none => rfl
  | some ent =>
    show c.capacity / (c.shards.set (scSelect c k)
        ⟨cowMutate (getShard c (scSelect c k)).store k { ent with expireAt := now + ttl },
         (getShard c (scSelect c k)).ev⟩).length = c.capacity / c.shards.length
    rw [List.length_set]

/-- No facade operation changes the per-shard threshold. -/
theorem scStep_capacity_div (c : SC) (op : CacheOp) :
    (scStep c op).capacity / (scStep c op).shards.length
      = c.capacity / c.shards.length := by
  cases op with
  | get k now => exact scGet_capacity_div c k now
  | put k v now => exact scPutWithTTL_capacity_div c k v 0 now
  | putTTL k v ttl now => exact scPutWithTTL_capacity_div c k v ttl now
  | remove k => exact scRemove_capacity_div c k
  | expire k ttl now => exact scExpire_capacity_div c k ttl now
  | ttl k now => rfl

/-- `PutWithTTL` preserves the cache invariant. -/
theorem cacheInv_scPutWithTTL (c : SC) (k : String) (v : GoVal) (ttl now : Int)
    (hT : 1 ≤ c.capacity / c.shards.length) (hinv : CacheInv c) (hk : k ≠ "") :
    CacheInv (scPutWithTTL c k v ttl now) := by
  intro sh hsh
  have hlen0 := hT_pos c hT
  have hTeq := scPutWithTTL_capacity_div c k v ttl now
  rw [hTeq]
  rw [scPutWithTTL_shards] at hsh
  rcases List.mem_or_eq_of_mem_set hsh with hm | heq
  · exact hinv sh hm
  · rw [heq]
    exact shardPut_inv _ _ k _ hT
      (hinv _ (getShard_mem c _ (scSelect_lt c k hlen0))) hk

/-- `Remove` preserves the cache invariant. -/
theorem cacheInv_scRemove (c : SC) (k : String)
    (hT : 1 ≤ c.capacity / c.shards.length) (hinv : CacheInv c) :
    CacheInv (scRemove c k) := by
  intro sh hsh
  have hlen0 := hT_pos c hT
  have hTeq := scRemove_capacity_div c k
  rw [hTeq]
  rw [scRemove_shards] at hsh
  rcases List.mem_or_eq_of_mem_set hsh with hm | heq
  · exact hinv sh hm
  · rw [heq]
    exact shardRemove_inv _ _ k (hinv _ (getShard_mem c _ (scSelect_lt c k hlen0)))

/-- `Expire` preserves the cache invariant. -/
theorem cacheInv_scExpire (c : SC) (k : String) (ttl now : Int)
    (hT : 1 ≤ c.capacity / c.shards.length) (hinv : CacheInv c) :
    CacheInv (scExpire c k ttl now).2 := by
  have hlen0 := hT_pos c hT
  simp only [scExpire]
  cases hcg : cowGet (getShard c (scSelect c k)).store k with
  | none => exact hinv
  | some ent =>
    intro sh hsh
    have hsh' : sh ∈ c.shards.set (scSelect c k)
        ⟨cowMutate (getShard c (scSelect c k)).store k { ent with expireAt := now + ttl },
         (getShard c (scSelect c k)).ev⟩ := hsh
    have hTeq : c.capacity / (c.shards.set (scSelect c k)
        ⟨cowMutate (getShard c (scSelect c k)).store k { ent with expireAt := now + ttl },
         (getShard c (scSelect c k)).ev⟩).length = c.capacity / c.shards.length := by
      rw [List.length_set]
    show ShardInv (c.capacity / (c.shards.set (scSelect c k)
        ⟨cowMutate (getShard c (scSelect c k)).store k { ent with expireAt := now + ttl },
         (getShard c (scSelect c k)).ev⟩).length) sh
    rw [hTeq]
    rcases List.mem_or_eq_of_mem_set hsh' with hm | heq
    · exact hinv sh hm
    · rw [heq]
      exact shardMutate_inv _ _ k _ (hinv _ (getShard_mem c _ (scSelect_lt c k hlen0)))

/-- The miss path preserves the cache invariant. -/
theorem cacheInv_scMiss (c : SC) (k : String) (now : Int)
    (hT : 1 ≤ c.capacity / c.shards.length) (hinv : CacheInv c) (hk : k ≠ "") :
    CacheInv (scMiss c k now).2 := by
  simp only [scMiss]
  split
  · exact hinv
  · exact cacheInv_scPutWithTTL _ k _ 0 now hT hinv hk

/-- `Get` preserves the cache invariant. -/
theorem cacheInv_scGet (c : SC) (k : String) (now : Int)
    (hT : 1 ≤ c.capacity / c.shards.length) (hinv : CacheInv c) (hk : k ≠ "") :
    CacheInv (scGet c k now).2 := by
  have hlen0 := hT_pos c hT
  cases hcg : cowGet (getShard c (scSelect c k)).store k with
  | none =>
    simp only [scGet, hcg]
    exact cacheInv_scMiss c k now hT hinv hk
  | some ent =>
    simp only [scGet, hcg]
    by_cases hex : engineIsExpired c.engine ent now = true
    · rw [if_pos hex]
      refine cacheInv_scMiss _ k now ?_ ?_ hk
      · rw [scRemove_capacity_div]
        exact hT
      · exact cacheInv_scRemove _ k hT hinv
    · rw [if_neg hex]
      intro sh hsh
      have hsh' : sh ∈ c.shards.set (scSelect c k)
          ⟨cowMutate (getShard c (scSelect c k)).store k (engineOnRead c.engine ent now).1,
           evOnGet (getShard c (scSelect c k)).ev k⟩ := hsh
      have hTeq : c.capacity / (c.shards.set (scSelect c k)
          ⟨cowMutate (getShard c (scSelect c k)).store k (engineOnRead c.engine ent now).1,
           evOnGet (getShard c (scSelect c k)).ev k⟩).length
          = c.capacity / c.shards.length := by
        rw [List.length_set]
      show ShardInv (c.capacity / (c.shards.set (scSelect c k)
          ⟨cowMutate (getShard c (scSelect c k)).store k (engineOnRead c.engine ent now).1,
           evOnGet (getShard c (scSelect c k)).ev k⟩).length) sh
      rw [hTeq]
      rcases List.mem_or_eq_of_mem_set hsh' with hm | heq
      · exact hinv sh hm
      · rw [heq]
        exact shardGetHit_inv _ _ k _ (hinv _ (getShard_mem c _ (scSelect_lt c k hlen0)))

/-- Every facade step preserves the cache invariant. -/
theorem cacheInv_scStep (c : SC) (op : CacheOp)
    (hT : 1 ≤ c.capacity / c.shards.length) (hinv : CacheInv c)
    (hk : op.key ≠ "") : CacheInv (scStep c op) := by
  cases op with
  | get k now => exact cacheInv_scGet c k now hT hinv hk
  | put k v now => exact cacheInv_scPutWithTTL c k v 0 now hT hinv hk
  | putTTL k v ttl now => exact cacheInv_scPutWithTTL c k v ttl now hT hinv hk
  | remove k => exact cacheInv_scRemove c k hT hinv
  | expire k ttl now => exact cacheInv_scExpire c k ttl now hT hinv
  | ttl k now => exact hinv

/-- The per-shard threshold is constant along any run. -/
theorem scRun_capacity_div (ops : List CacheOp) : ∀ (c : SC),
    (scRun c ops).capacity / (scRun c ops).shards.length
      = c.capacity / c.shards.length := by
  induction ops with
  | nil => exact fun c => rfl
  | cons op rest ih =>
    intro c
    show (scRun (scStep c op) rest).capacity / (scRun (scStep c op) rest).shards.length = _
    rw [ih (scStep c op), scStep_capacity_div]

/-- The cache invariant holds after any run from an invariant state. -/
theorem cacheInv_scRun (ops : List CacheOp) : ∀ (c : SC),
    1 ≤ c.capacity / c.shards.length → CacheInv c → opsOK ops = true →
    CacheInv (scRun c ops) := by
  induction ops with
  | nil => exact fun c _ h _ => h
  | cons op rest ih =>
    intro c hT hinv hok
    simp only [opsOK, List.all_cons, Bool.and_eq_true] at hok
    show CacheInv (scRun (scStep c op) rest)
    exact ih (scStep c op) (by rw [scStep_capacity_div]; exact hT)
      (cacheInv_scStep c op hT hinv (of_decide_eq_true hok.1))
      (by simpa [opsOK] using hok.2)

/-- The shard count chosen at construction. -/
theorem newShardedCache_length (n cap : Nat) (pt : PolicyType) (eng : EngineCfg)
    (hfn : String → Nat) : (newShardedCache n cap pt eng hfn).shards.length = n := by
  show (List.replicate n (⟨cowNew, newEvictionPolicy pt⟩ : Shard)).length = n
  exact List.length_replicate n _

/-- A freshly constructed cache satisfies the invariant. -/
theorem cacheInv_new (n cap : Nat) (pt : PolicyType) (eng : EngineCfg)
    (hfn : String → Nat) (hT : 1 ≤ cap / n) :
    CacheInv (newShardedCache n cap pt eng hfn) := by
  intro sh hsh
  have heq : sh = ⟨cowNew, newEvictionPolicy pt⟩ := List.eq_of_mem_replicate hsh
  have hTeq : (newShardedCache n cap pt eng hfn).capacity /
      (newShardedCache n cap pt eng hfn).shards.length = cap / n := by
    rw [newShardedCache_length]
    rfl
  rw [hTeq, heq]
  refine ⟨⟨?_, rfl, ?_, ?_, ?_⟩, ?_, ?_⟩
  · exact List.nodup_nil
  · cases pt with
    | LRU => exact List.nodup_nil
    | LFU => exact fun f x => by simp [newEvictionPolicy, lfuNew]
    | FIFO => exact ⟨List.nodup_nil, fun x => by simp [newEvictionPolicy, fifoNew]⟩
  · cases pt with
    | LRU => exact fun x => by simp [newEvictionPolicy, evTracks, cowNew]
    | LFU => exact fun x => by simp [newEvictionPolicy, evTracks, lfuNew, cowNew]
    | FIFO => exact fun x => by simp [newEvictionPolicy, evTracks, fifoNew, cowNew]
  · cases pt with
    | LRU => simp [newEvictionPolicy, evTracks]
    | LFU => simp [newEvictionPolicy, evTracks, lfuNew]
    | FIFO => simp [newEvictionPolicy, evTracks, fifoNew]
  · exact Nat.zero_le _
  · intro h0
    exfalso
    have : (0 : Nat) = cap / n := h0
    omega

/-- C8 (amended): for every construction (shard count, capacity, any of the
three eviction policies, any engine and hash) and every facade operation
sequence using non-empty keys, provided the per-shard threshold
`capacity / shardCount` is at least 1, every shard's store size stays at or
under the threshold — in particular immediately after every insert.  (The
proof maintains, for every reachable state, the full invariant: the policy's
bookkeeping mirrors the store, eviction is ready whenever a shard is full,
and the bound holds.) -/
theorem C8_amended_shard_occupancy_bound (n cap : Nat) (pt : PolicyType)
    (eng : EngineCfg) (hfn : String → Nat) (ops : List CacheOp)
    (hT : 1 ≤ cap / n) (hok : opsOK ops = true) :
    ∀ sh ∈ (scRun (newShardedCache n cap pt eng hfn) ops).shards,
      sh.store.size ≤ cap / n := by
  have hTc : 1 ≤ (newShardedCache n cap pt eng hfn).capacity /
      (newShardedCache n cap pt eng hfn).shards.length := by
    rw [newShardedCache_length]
    exact hT
  have hinv := cacheInv_scRun ops _ hTc (cacheInv_new n cap pt eng hfn hT) hok
  intro sh hsh
  have hb := (hinv sh hsh).bound
  rw [scRun_capacity_div, newShardedCache_length] at hb
  exact hb

/-- Counterexample to C8 as stated: with capacity 0 and one shard the
threshold `capacity / shardCount` is 0, yet a single `Put` still inserts —
the eviction policy has nothing to evict, so the shard ends up holding one
entry, exceeding the threshold.  (Any capacity below the shard count gives
the same effect.) -/
theorem C8_counterexample_zero_threshold :
    ((scRun (newShardedCache 1 0 .LRU egCfgPlain egHash)
        [.put "a" (some 1) 0]).shards.map (fun sh => sh.store.size)) = [1]
    ∧ (0 : Nat) / 1 = 0 := by
  constructor <;> decide

/-- Witness for C8 (amended): an LFU cache with 2 shards and capacity 6
(threshold 3) runs a mixed workload; the first shard of the final state is
at or under size 3. -/
theorem C8_amended_shard_occupancy_bound_witness :
    (getShard (scRun (newShardedCache 2 6 .LFU egCfgPlain egHash)
        [.put "a" (some 1) 0, .put "b" (some 2) 1, .putTTL "c" (some 3) 5 2,
         .get "a" 3, .remove "b", .put "d" (some 4) 4, .put "e" (some 5) 5,
         .expire "a" 9 6, .put "f" (some 6) 7, .get "zz" 8]) 0).store.size ≤ 6 / 2 :=
  C8_amended_shard_occupancy_bound 2 6 .LFU egCfgPlain egHash _ (by decide) (by decide)
    _ (getShard_mem _ 0 (by decide))

end InMemoryCache
